import Mathlib

/-!
Shallow embedding of the `tcache` LRU+TTL cache (src/tcache.go) and proofs
about its operations.

Modelling conventions:
* Go's `map[K]*list.Element` becomes an association list `items : List (K × Nat)`
  mapping each key to the numeric id of a list element.  Assignment replaces the
  binding for the key; lookup finds the unique binding.
* Go's `container/list` becomes `lst : List Nat`, the element ids in
  front-to-back order.  Element payloads (`Element.Value`) live in a `heap`
  association list from element id to `Option (Item K V)`; `none` models a nil
  `*Item` pointer stored in an element (the Go code can push `PushFront(newItem)`
  with `newItem == nil`).  The heap is never shrunk: a Go `*list.Element` stays
  readable through its pointer even after `list.Remove`, and the timer callbacks
  capture such pointers.
* `time.Timer` handles become numeric ids.  `timers` holds the currently armed
  timers together with the callback each was armed with: `TimerCb.expire k v`
  is the closure built by `SetWithTTL`/`UpdateWithTTL` (it captures the key and
  the value), `TimerCb.refreshDelete k eid` is the closure built by `Refresh`
  (it captures the key and the `*list.Element`).  `Stop` removes an id from
  `timers`; firing a timer runs its callback and removes the id.
* Hook callbacks (`onInsert` …) are modelled by presence flags plus an event
  log: an operation emits `Ev.evict k v` exactly when the Go code would call
  `c.onEvict(k, v)`, i.e. when the corresponding hook is registered.  The
  per-key watch callback is modelled by a boolean on the item plus
  `Ev.watch …` events carrying the exact arguments the Go code passes.
* A Go runtime panic (nil-pointer dereference) and a non-terminating loop are
  both modelled by returning `none`; every operation that can panic returns
  `Option`.  Go's zero value `var zero V` is `default`.
-/

namespace Tcache

/-- The `Operation` enum of src/tcache.go (lines 412-420). -/
inductive Operation where
  | INSERT
  | UPDATE
  | DELETE
  | EVICT
  | EXPIRE
deriving DecidableEq, Repr

/-- The `Item[K, V]` struct (src/tcache.go lines 404-410).  `timer` is the id of
the armed timer handle (`none` = nil pointer), `ttl` is the stored
`time.Duration`, `onWatch` records whether a watch callback is attached.  The
dead `fn` field of the Go struct is omitted: no code reads or writes it. -/
structure Item (K V : Type) where
  key : K
  value : V
  timer : Option Nat := none
  ttl : Int := 0
  onWatch : Bool := false
deriving DecidableEq, Repr

/-- The callback a timer was armed with.  `expire k v` is the closure of
`SetWithTTL`/`UpdateWithTTL` (src/tcache.go lines 291-299 and 118-126), which
captures the key and the value passed to the arming call.  `refreshDelete k eid`
is the closure of `Refresh` (lines 81-87), which captures the key and the
`*list.Element` (modelled by its id). -/
inductive TimerCb (K V : Type) where
  | expire (key : K) (value : V)
  | refreshDelete (key : K) (elemId : Nat)
deriving DecidableEq, Repr

/-- One callback invocation: which hook fired and with which arguments.
`watch k op old new` records a call of the per-key watch callback. -/
inductive Ev (K V : Type) where
  | insert (k : K) (v : V)
  | update (k : K) (old new : V)
  | delete (k : K) (v : V)
  | expire (k : K) (v : V)
  | evict (k : K) (v : V)
  | watch (k : K) (op : Operation) (old new : V)
deriving DecidableEq, Repr

/-- The `Cache[K, V]` struct (src/tcache.go lines 392-402) plus the bookkeeping
needed by the embedding (the element heap, armed timers, fresh-id counters).
The `hasOn…` flags record whether the corresponding hook callback is non-nil. -/
structure Cache (K V : Type) where
  heap : List (Nat × Option (Item K V))
  lst : List Nat
  items : List (K × Nat)
  capacity : Int
  nextId : Nat
  timers : List (Nat × TimerCb K V)
  nextTimer : Nat
  hasOnInsert : Bool
  hasOnUpdate : Bool
  hasOnDelete : Bool
  hasOnExpire : Bool
  hasOnEvict : Bool
deriving DecidableEq, Repr

variable {K V : Type} [DecidableEq K]

/-- Lookup in an association list (Go map read / element-id lookup). -/
def lookupA {A B : Type} [DecidableEq A] : List (A × B) → A → Option B
  | [], _ => none
  | p :: l, a => if p.1 = a then some p.2 else lookupA l a

/-- Remove every binding of a key (Go `delete(m, k)`). -/
def eraseA {A B : Type} [DecidableEq A] (l : List (A × B)) (a : A) : List (A × B) :=
  l.filter (fun p => p.1 ≠ a)

/-- Go map assignment `m[k] = b`: replaces any existing binding. -/
def insertA {A B : Type} [DecidableEq A] (l : List (A × B)) (a : A) (b : B) : List (A × B) :=
  (a, b) :: eraseA l a

/-- Read `elem.Value.(*Item[K, V])` and dereference it: `none` if the element id
is unknown or the stored pointer is nil (a field access would panic). -/
def getItem (st : Cache K V) (id : Nat) : Option (Item K V) :=
  match lookupA st.heap id with
  | some (some it) => some it
  | _ => none

/-- Mutate the item a live element points at (in-place field update). -/
def setItem (st : Cache K V) (id : Nat) (f : Item K V → Item K V) : Cache K V :=
  { st with heap := st.heap.map (fun q => (q.1, if q.1 = id then q.2.map f else q.2)) }

/-- `c.list.MoveToFront(e)`: no-op when the element is not in the list. -/
def moveToFront (st : Cache K V) (id : Nat) : Cache K V :=
  if id ∈ st.lst then { st with lst := id :: st.lst.erase id } else st

/-- `c.list.PushFront(payload)`: allocates a fresh element id. -/
def pushFront (st : Cache K V) (payload : Option (Item K V)) : Cache K V × Nat :=
  ({ st with heap := (st.nextId, payload) :: st.heap,
             lst := st.nextId :: st.lst,
             nextId := st.nextId + 1 }, st.nextId)

/-- `c.list.Remove(e)`: drops the element from the order; the payload stays
reachable through the heap (Go pointers outlive list membership). -/
def removeElem (st : Cache K V) (id : Nat) : Cache K V :=
  { st with lst := st.lst.erase id }

/-- `timer.Stop()` on an armed handle: the timer can no longer fire. -/
def stopTimer (st : Cache K V) (tid : Nat) : Cache K V :=
  { st with timers := st.timers.filter (fun q => q.1 ≠ tid) }

/-- `time.AfterFunc(ttl, cb)`: arms a fresh timer handle. -/
def armTimer (st : Cache K V) (cb : TimerCb K V) : Cache K V × Nat :=
  ({ st with timers := st.timers ++ [(st.nextTimer, cb)],
             nextTimer := st.nextTimer + 1 }, st.nextTimer)

/-- `New` (src/tcache.go lines 371-377): empty store, no hooks registered. -/
def New (capacity : Int) : Cache K V :=
  { heap := [], lst := [], items := [], capacity := capacity, nextId := 0,
    timers := [], nextTimer := 0,
    hasOnInsert := false, hasOnUpdate := false, hasOnDelete := false,
    hasOnExpire := false, hasOnEvict := false }

/-- `Len` (src/tcache.go lines 42-46). -/
def Len (st : Cache K V) : Nat := st.items.length

/-- `Has` (src/tcache.go lines 48-53): map membership, no recency effect. -/
def Has (k : K) (st : Cache K V) : Bool := (lookupA st.items k).isSome

/-- Registering the `onEvict` hook (src/tcache.go lines 12-16). -/
def OnEvictReg (st : Cache K V) : Cache K V := { st with hasOnEvict := true }

/-- Registering the `onInsert` hook (src/tcache.go lines 18-22). -/
def OnInsertReg (st : Cache K V) : Cache K V := { st with hasOnInsert := true }

/-- Registering the `onUpdate` hook (src/tcache.go lines 24-28). -/
def OnUpdateReg (st : Cache K V) : Cache K V := { st with hasOnUpdate := true }

/-- Registering the `onDelete` hook (src/tcache.go lines 30-34). -/
def OnDeleteReg (st : Cache K V) : Cache K V := { st with hasOnDelete := true }

/-- Registering the `onExpire` hook (src/tcache.go lines 36-40). -/
def OnExpireReg (st : Cache K V) : Cache K V := { st with hasOnExpire := true }

/-- `Refresh` (src/tcache.go lines 71-92): for a present key, stop the current
timer if any and, when `ttl > 0`, arm a fresh timer whose callback is the
`onDelete`-then-`Delete` closure capturing the key and the element; finally
store `ttl` in the item.  No hook fires from `Refresh` itself. -/
def Refresh (k : K) (ttl : Int) (st : Cache K V) : Option (Cache K V × List (Ev K V)) :=
  match lookupA st.items k with
  | none => some (st, [])
  | some eid => do
      let it ← getItem st eid
      let st1 := match it.timer with
                 | some t => stopTimer st t
                 | none => st
      let st2 :=
        if ttl > 0 then
          let (sta, tid) := armTimer st1 (TimerCb.refreshDelete k eid)
          setItem sta eid (fun i => { i with timer := some tid })
        else st1
      let st3 := setItem st2 eid (fun i => { i with ttl := ttl })
      some (st3, [])

/-- `Update` (src/tcache.go lines 93-103): replaces the value of a present key
(no-op when absent).  The code overwrites `item.value` first and only then
calls `c.onUpdate(key, value, item.value)`, so the event records the arguments
actually passed: the new value in both positions. -/
def Update (k : K) (v : V) (st : Cache K V) : Option (Cache K V × List (Ev K V)) :=
  match lookupA st.items k with
  | none => some (st, [])
  | some eid => do
      let _ ← getItem st eid
      let st1 := setItem st eid (fun i => { i with value := v })
      let it2 ← getItem st1 eid
      let evs := if st1.hasOnUpdate then [Ev.update k v it2.value] else []
      some (st1, evs)

/-- `UpdateWithTTL` (src/tcache.go lines 104-135): stop the previous timer
(nil-checked), arm an expiration timer when `ttl > 0` (its closure captures the
key and the new value), then assign `value` and `timer`; the stored `ttl` field
is not updated.  `onUpdate` is again called after the value was overwritten. -/
def UpdateWithTTL (k : K) (v : V) (ttl : Int) (st : Cache K V) :
    Option (Cache K V × List (Ev K V)) :=
  match lookupA st.items k with
  | none => some (st, [])
  | some eid => do
      let it ← getItem st eid
      let st1 := match it.timer with
                 | some t => stopTimer st t
                 | none => st
      let (st2, timerOpt) :=
        if ttl > 0 then
          let (sta, tid) := armTimer st1 (TimerCb.expire k v)
          (sta, some tid)
        else (st1, none)
      let st3 := setItem st2 eid (fun i => { i with value := v, timer := timerOpt })
      let it2 ← getItem st3 eid
      let evs := if st3.hasOnUpdate then [Ev.update k v it2.value] else []
      some (st3, evs)

/-- `Delete` (src/tcache.go lines 136-154): for a present key, stop its timer,
remove it from map and list, fire `onDelete` and then the watch callback with
`(key, DELETE, value, value)`.  Idempotent no-op when absent. -/
def Delete (k : K) (st : Cache K V) : Option (Cache K V × List (Ev K V)) :=
  match lookupA st.items k with
  | none => some (st, [])
  | some eid => do
      let it ← getItem st eid
      let st1 := match it.timer with
                 | some t => stopTimer st t
                 | none => st
      let st2 := { st1 with items := eraseA st1.items k }
      let st3 := removeElem st2 eid
      let e1 := if st3.hasOnDelete then [Ev.delete k it.value] else []
      let e2 := if it.onWatch then [Ev.watch k Operation.DELETE it.value it.value] else []
      some (st3, e1 ++ e2)

/-- One iteration body of `DeleteAll` (src/tcache.go lines 159-167): entries
whose timer is nil are skipped entirely — they are neither removed nor does
`onDelete` fire for them. -/
def deleteAllStep (st : Cache K V) (p : K × Nat) : Option (Cache K V × List (Ev K V)) := do
  let it ← getItem st p.2
  match it.timer with
  | none => some (st, [])
  | some t =>
      let st1 := stopTimer st t
      let evs := if st1.hasOnDelete then [Ev.delete p.1 it.value] else []
      let st2 := removeElem st1 p.2
      let st3 := { st2 with items := eraseA st2.items p.1 }
      some (st3, evs)

/-- `DeleteAll` (src/tcache.go lines 156-169): loop over the entries present at
entry to the call. -/
def runDeleteAll : List (K × Nat) → Cache K V → Option (Cache K V × List (Ev K V))
  | [], st => some (st, [])
  | p :: rest, st => do
      let (st1, e1) ← deleteAllStep st p
      let (st2, e2) ← runDeleteAll rest st1
      some (st2, e1 ++ e2)

/-- `DeleteAll` entry point. -/
def DeleteAll (st : Cache K V) : Option (Cache K V × List (Ev K V)) :=
  runDeleteAll st.items st

/-- `Get` (src/tcache.go lines 205-218): absent keys yield the zero value and
`false`; present keys re-run `Refresh key item.ttl`, move the element to the
front and return the stored value with `true`. -/
def Get [Inhabited V] (k : K) (st : Cache K V) : Option (V × Bool × Cache K V) :=
  match lookupA st.items k with
  | none => some (default, false, st)
  | some eid => do
      let it ← getItem st eid
      let (st1, _) ← Refresh k it.ttl st
      let st2 := moveToFront st1 eid
      let it2 ← getItem st2 eid
      some (it2.value, true, st2)

/-- `Set` (src/tcache.go lines 220-264).  Existing key: stop its timer and move
its element to the front (the element is never removed).  If the list has
reached capacity the back element is evicted (`onEvict`, plus a watch
`EVICT` notification when the overwritten key has a watch).  A replacement item
is then built: for an existing key it is non-nil only when the old item carries
a watch — otherwise the Go code pushes a nil `*Item` and panics when it
dereferences `c.items[key].Value.(*Item).onWatch` (modelled by `none`).  The
new element is pushed at the front and the map rebound to it; a watch `UPDATE`
notification and `onInsert` close the operation. -/
def Set (k : K) (v : V) (st : Cache K V) : Option (Cache K V × List (Ev K V)) := do
  let exOpt := lookupA st.items k
  -- lines 223-229: stop the old timer, move the old element to the front
  let st ←
    match exOpt with
    | some eid => do
        let it ← getItem st eid
        let sta := match it.timer with
                   | some t => stopTimer st t
                   | none => st
        pure (moveToFront sta eid)
    | none => pure st
  -- lines 231-245: capacity check and eviction of the back element
  let r1 ←
    if (st.lst.length : Int) ≥ st.capacity then
      match st.lst.getLast? with
      | some bid => do
          let bit ← getItem st bid
          let st1 := { st with items := eraseA st.items bit.key }
          let st2 := removeElem st1 bid
          let e1 := if st2.hasOnEvict then [Ev.evict bit.key bit.value] else []
          let e2 ←
            match exOpt with
            | some eid => do
                let it ← getItem st2 eid
                pure (if it.onWatch then [Ev.watch k Operation.EVICT v v] else [])
            | none => pure []
          pure (st2, e1 ++ e2)
      | none => pure (st, [])
    else pure (st, ([] : List (Ev K V)))
  let st := r1.1
  let evs1 := r1.2
  -- lines 247-254: build the replacement item
  let newItem : Option (Item K V) ←
    match exOpt with
    | some eid => do
        let it ← getItem st eid
        pure (if it.onWatch then some { key := k, value := v, onWatch := true } else none)
    | none => pure (some { key := k, value := v })
  let r2 := pushFront st newItem
  let st := { r2.1 with items := insertA r2.1.items k r2.2 }
  -- lines 257-259: dereference the freshly pushed payload and notify the watch
  let pay ← getItem st r2.2
  let evs2 ←
    if pay.onWatch then
      match exOpt with
      | some eid => do
          let oldIt ← getItem st eid
          pure [Ev.watch k Operation.UPDATE oldIt.value v]
      | none => none  -- `item` is nil here: the Go code would dereference it
    else pure []
  let evs3 := if st.hasOnInsert then [Ev.insert k v] else []
  some (st, evs1 ++ evs2 ++ evs3)

/-- `SetWithTTL` (src/tcache.go lines 277-339).  Existing key: the code calls
`item.Value.(*Item).timer.Stop()` with no nil check, so an entry stored by
plain `Set` (nil timer) panics (`none`).  A timer capturing the key and value
is armed when `ttl > 0`; the eviction branch additionally stops the evicted
element's timer.  The replacement item follows the same pattern as `Set`
(nil unless the old item had a watch); in the fresh-key case it stores the new
timer and `ttl`, in the watch case the `ttl` field is left at zero. -/
def SetWithTTL (k : K) (v : V) (ttl : Int) (st : Cache K V) :
    Option (Cache K V × List (Ev K V)) := do
  let exOpt := lookupA st.items k
  -- lines 281-287: unconditional Stop on the previous timer handle
  let st ←
    match exOpt with
    | some eid => do
        let it ← getItem st eid
        match it.timer with
        | none => none  -- timer.Stop() on a nil *time.Timer dereferences nil
        | some t =>
            let sta := stopTimer st t
            pure (moveToFront sta eid)
    | none => pure st
  -- lines 289-300: arm the expiration timer (closure captures key and value)
  let r0 :=
    if ttl > 0 then
      let (sta, tid) := armTimer st (TimerCb.expire k v)
      (sta, some tid)
    else (st, none)
  let st := r0.1
  let timerOpt := r0.2
  -- lines 302-321: capacity check; the evicted element's timer is stopped here
  let r1 ←
    if (st.lst.length : Int) ≥ st.capacity then
      match st.lst.getLast? with
      | some bid => do
          let bit ← getItem st bid
          let st1 := match bit.timer with
                     | some t => stopTimer st t
                     | none => st
          let st2 := { st1 with items := eraseA st1.items bit.key }
          let st3 := removeElem st2 bid
          let e1 := if st3.hasOnEvict then [Ev.evict bit.key bit.value] else []
          let e2 ←
            match exOpt with
            | some eid => do
                let it ← getItem st3 eid
                pure (if it.onWatch then [Ev.watch k Operation.EVICT v v] else [])
            | none => pure []
          pure (st3, e1 ++ e2)
      | none => pure (st, [])
    else pure (st, ([] : List (Ev K V)))
  let st := r1.1
  let evs1 := r1.2
  -- lines 322-329: build the replacement item
  let newItem : Option (Item K V) ←
    match exOpt with
    | some eid => do
        let it ← getItem st eid
        pure (if it.onWatch then
                some { key := k, value := v, timer := timerOpt, onWatch := true }
              else none)
    | none => pure (some { key := k, value := v, timer := timerOpt, ttl := ttl })
  let r2 := pushFront st newItem
  let st := { r2.1 with items := insertA r2.1.items k r2.2 }
  -- lines 332-334: dereference the freshly pushed payload and notify the watch
  let pay ← getItem st r2.2
  let evs2 ←
    if pay.onWatch then
      match exOpt with
      | some eid => do
          let oldIt ← getItem st eid
          pure [Ev.watch k Operation.UPDATE oldIt.value v]
      | none => none
    else pure []
  let evs3 := if st.hasOnInsert then [Ev.insert k v] else []
  some (st, evs1 ++ evs2 ++ evs3)

/-- The eviction loop of `SetCapacity` (src/tcache.go lines 59-68), written with
explicit fuel.  Each iteration with a non-empty list removes one element, so
`st.lst.length + 1` fuel covers every terminating execution; `none` is returned
exactly when the Go loop would not terminate: the list is empty (`Back()` is
nil, nothing is removed) while `list.Len() > capacity` still holds, i.e. the
capacity is negative. -/
def evictLoop : Nat → Cache K V → Option (Cache K V × List (Ev K V))
  | 0, _ => none
  | fuel + 1, st =>
      if (st.lst.length : Int) > st.capacity then
        match st.lst.getLast? with
        | none => none  -- models the non-terminating loop
        | some bid => do
            let bit ← getItem st bid
            let st1 := { st with items := eraseA st.items bit.key }
            let st2 := removeElem st1 bid
            let e := if st2.hasOnEvict then [Ev.evict bit.key bit.value] else []
            let (st3, es) ← evictLoop fuel st2
            some (st3, e ++ es)
      else some (st, [])

/-- `SetCapacity` (src/tcache.go lines 55-69): store the new bound, then evict
from the back until the list length is within it. -/
def SetCapacity (n : Int) (st : Cache K V) : Option (Cache K V × List (Ev K V)) :=
  evictLoop (st.lst.length + 1) { st with capacity := n }

/-- `OnWatch` (src/tcache.go lines 379-390): attach the watch to a present key,
or push a placeholder item (zero value, watch attached) for an absent key —
with no capacity check. -/
def OnWatch [Inhabited V] (k : K) (st : Cache K V) : Option (Cache K V × List (Ev K V)) :=
  match lookupA st.items k with
  | some eid => do
      let _ ← getItem st eid
      some (setItem st eid (fun i => { i with onWatch := true }), [])
  | none =>
      let r := pushFront st (some { key := k, value := default, onWatch := true })
      some ({ r.1 with items := insertA r.1.items k r.2 }, [])

/-- Firing an armed timer: runs the callback the handle was armed with and
disarms it.  `expire` (src/tcache.go lines 292-298) removes the key currently
bound in the map — with no check that the handle still belongs to it — and
fires `onExpire` with the captured value.  `refreshDelete` (lines 82-87) fires
`onDelete` with the captured element's current value, then runs the full
`Delete` operation (which fires `onDelete` again), then removes the captured
element once more. -/
def fireTimer (tid : Nat) (st : Cache K V) : Option (Cache K V × List (Ev K V)) := do
  let cb ← lookupA st.timers tid
  let st := stopTimer st tid
  match cb with
  | TimerCb.expire k v =>
      match lookupA st.items k with
      | none => some (st, [])
      | some eid =>
          let st1 := removeElem st eid
          let st2 := { st1 with items := eraseA st1.items k }
          some (st2, if st2.hasOnExpire then [Ev.expire k v] else [])
  | TimerCb.refreshDelete k eid => do
      let it ← getItem st eid
      let e1 := if st.hasOnDelete then [Ev.delete k it.value] else []
      let (st1, e2) ← Delete k st
      let st2 := removeElem st1 eid
      some (st2, e1 ++ e2)

/-- Closed form of the state reached by `Set`-ing a list of fresh keys, one
push per key: each step allocates the next element id, pushes it at the front
and binds the key to it. -/
def fillAux : List (K × V) → Cache K V → Cache K V
  | [], st => st
  | (k, v) :: rest, st =>
      fillAux rest
        { st with heap := (st.nextId, some { key := k, value := v }) :: st.heap,
                  lst := st.nextId :: st.lst,
                  items := (k, st.nextId) :: st.items,
                  nextId := st.nextId + 1 }

/-- Element ids `n0+len-1, …, n0+1, n0` in front-to-back order. -/
def idsDesc (n0 : Nat) : Nat → List Nat
  | 0 => []
  | len + 1 => idsDesc (n0 + 1) len ++ [n0]

/-- The map bindings created by filling: latest key first. -/
def pairsDesc : List (K × V) → Nat → List (K × Nat)
  | [], _ => []
  | (k, _) :: rest, n0 => pairsDesc rest (n0 + 1) ++ [(k, n0)]

/-- The heap entries created by filling: latest element first. -/
def heapDesc : List (K × V) → Nat → List (Nat × Option (Item K V))
  | [], _ => []
  | (k, v) :: rest, n0 => heapDesc rest (n0 + 1) ++ [(n0, some { key := k, value := v })]

/-- A concrete one-entry cache (the state `Set("x",7)` reaches from a fresh
capacity-2 cache), used to instantiate theorems with hypotheses. -/
def c5WitnessState : Cache String Int :=
  { heap := [(0, some { key := "x", value := 7 })], lst := [0], items := [("x", 0)],
    capacity := 2, nextId := 1, timers := [], nextTimer := 0,
    hasOnInsert := false, hasOnUpdate := false, hasOnDelete := false,
    hasOnExpire := false, hasOnEvict := false }

/-- The public mutating operations plus timer fires and hook registration. -/
inductive Op (K V : Type) where
  | set (k : K) (v : V)
  | setWithTTL (k : K) (v : V) (ttl : Int)
  | get (k : K)
  | update (k : K) (v : V)
  | updateWithTTL (k : K) (v : V) (ttl : Int)
  | refresh (k : K) (ttl : Int)
  | delete (k : K)
  | deleteAll
  | setCapacity (n : Int)
  | onWatch (k : K)
  | fire (tid : Nat)
  | regInsert
  | regUpdate
  | regDelete
  | regExpire
  | regEvict
deriving DecidableEq, Repr

/-- The operation list `Set k₀ v₀; Set k₁ v₁; …` for a list of pairs. -/
def setsOf (kvs : List (K × V)) : List (Op K V) :=
  kvs.map (fun p => Op.set p.1 p.2)

/-- Run one operation. -/
def runOp [Inhabited V] : Op K V → Cache K V → Option (Cache K V × List (Ev K V))
  | Op.set k v, st => Set k v st
  | Op.setWithTTL k v t, st => SetWithTTL k v t st
  | Op.get k, st => (Get k st).map (fun r => (r.2.2, []))
  | Op.update k v, st => Update k v st
  | Op.updateWithTTL k v t, st => UpdateWithTTL k v t st
  | Op.refresh k t, st => Refresh k t st
  | Op.delete k, st => Delete k st
  | Op.deleteAll, st => DeleteAll st
  | Op.setCapacity n, st => SetCapacity n st
  | Op.onWatch k, st => OnWatch k st
  | Op.fire t, st => fireTimer t st
  | Op.regInsert, st => some (OnInsertReg st, [])
  | Op.regUpdate, st => some (OnUpdateReg st, [])
  | Op.regDelete, st => some (OnDeleteReg st, [])
  | Op.regExpire, st => some (OnExpireReg st, [])
  | Op.regEvict, st => some (OnEvictReg st, [])

/-- Run a sequence of operations, accumulating the hook-invocation log.
`none` as soon as one operation panics (or loops forever). -/
def runOps [Inhabited V] : List (Op K V) → Cache K V → Option (Cache K V × List (Ev K V))
  | [], st => some (st, [])
  | op :: rest, st => do
      let (st1, e1) ← runOp op st
      let (st2, e2) ← runOps rest st1
      some (st2, e1 ++ e2)

/-- Well-formedness of a cache state: map keys are unique, every map binding
points at a live element whose item carries that key and which is in the
recency list, and all allocated heap ids are below the allocation counter. -/
def WF (st : Cache K V) : Prop :=
  (st.items.map Prod.fst).Nodup ∧
  (∀ p ∈ st.items, ∃ it, lookupA st.heap p.2 = some (some it) ∧ it.key = p.1 ∧
    p.2 ∈ st.lst) ∧
  (∀ q ∈ st.heap, q.1 < st.nextId)

/-- The capacity bound: the recency list is within the (positive) capacity. -/
def CapOK (st : Cache K V) : Prop :=
  (st.lst.length : Int) ≤ st.capacity ∧ 1 ≤ st.capacity

/-- The public mutating operations with positive capacity arguments.  Excludes
`OnWatch` (whose placeholder insertion has no capacity check) and timer fires
(which are not public operations). -/
def GoodOp : Op K V → Prop
  | Op.onWatch _ => False
  | Op.fire _ => False
  | Op.setCapacity n => 1 ≤ n
  | _ => True

@[simp]
theorem lookupA_nil {A B : Type} [DecidableEq A] (a : A) :
    lookupA ([] : List (A × B)) a = none := rfl

@[simp]
theorem lookupA_cons {A B : Type} [DecidableEq A] (p : A × B) (l : List (A × B)) (a : A) :
    lookupA (p :: l) a = if p.1 = a then some p.2 else lookupA l a := rfl

@[simp]
theorem eraseA_nil {A B : Type} [DecidableEq A] (a : A) :
    eraseA ([] : List (A × B)) a = [] := rfl

theorem eraseA_cons {A B : Type} [DecidableEq A] (p : A × B) (l : List (A × B)) (a : A) :
    eraseA (p :: l) a = if p.1 = a then eraseA l a else p :: eraseA l a := by
  by_cases hp : p.1 = a
  · simp [eraseA, List.filter_cons, hp]
  · simp [eraseA, List.filter_cons, hp]

theorem eraseA_eq_of_lookup_none {A B : Type} [DecidableEq A] {l : List (A × B)} {a : A}
    (h : lookupA l a = none) : eraseA l a = l := by
  induction l with
  | nil => rfl
  | cons p l ih =>
      rw [lookupA_cons] at h
      by_cases hp : p.1 = a
      · rw [if_pos hp] at h
        cases h
      · rw [if_neg hp] at h
        rw [eraseA_cons, if_neg hp, ih h]

@[simp]
theorem lookupA_eraseA_self {A B : Type} [DecidableEq A] (l : List (A × B)) (a : A) :
    lookupA (eraseA l a) a = none := by
  induction l with
  | nil => rfl
  | cons p l ih =>
      rw [eraseA_cons]
      by_cases hp : p.1 = a
      · rw [if_pos hp]
        exact ih
      · rw [if_neg hp, lookupA_cons, if_neg hp]
        exact ih

theorem lookupA_eraseA_ne {A B : Type} [DecidableEq A] (l : List (A × B)) {a b : A}
    (h : b ≠ a) : lookupA (eraseA l a) b = lookupA l b := by
  induction l with
  | nil => rfl
  | cons p l ih =>
      rw [eraseA_cons]
      by_cases hp : p.1 = a
      · rw [if_pos hp, ih, lookupA_cons]
        have : p.1 ≠ b := fun hc => h (hc ▸ hp)
        rw [if_neg this]
      · rw [if_neg hp, lookupA_cons, lookupA_cons, ih]

theorem lookupA_mapVal {A B : Type} [DecidableEq A] (l : List (A × B)) (g : A → B → B)
    (a : A) : lookupA (l.map (fun q => (q.1, g q.1 q.2))) a = (lookupA l a).map (g a) := by
  induction l with
  | nil => rfl
  | cons p l ih =>
      by_cases hp : p.1 = a
      · subst hp
        simp [lookupA_cons]
      · simp [lookupA_cons, hp, ih]

@[simp]
theorem setItem_items (st : Cache K V) (id : Nat) (f : Item K V → Item K V) :
    (setItem st id f).items = st.items := rfl

@[simp]
theorem setItem_lst (st : Cache K V) (id : Nat) (f : Item K V → Item K V) :
    (setItem st id f).lst = st.lst := rfl

@[simp]
theorem setItem_capacity (st : Cache K V) (id : Nat) (f : Item K V → Item K V) :
    (setItem st id f).capacity = st.capacity := rfl

@[simp]
theorem setItem_nextId (st : Cache K V) (id : Nat) (f : Item K V → Item K V) :
    (setItem st id f).nextId = st.nextId := rfl

@[simp]
theorem stopTimer_items (st : Cache K V) (t : Nat) : (stopTimer st t).items = st.items := rfl

@[simp]
theorem stopTimer_lst (st : Cache K V) (t : Nat) : (stopTimer st t).lst = st.lst := rfl

@[simp]
theorem stopTimer_heap (st : Cache K V) (t : Nat) : (stopTimer st t).heap = st.heap := rfl

@[simp]
theorem stopTimer_capacity (st : Cache K V) (t : Nat) :
    (stopTimer st t).capacity = st.capacity := rfl

@[simp]
theorem stopTimer_nextId (st : Cache K V) (t : Nat) : (stopTimer st t).nextId = st.nextId := rfl

@[simp]
theorem armTimer_items (st : Cache K V) (cb : TimerCb K V) :
    (armTimer st cb).1.items = st.items := rfl

@[simp]
theorem armTimer_lst (st : Cache K V) (cb : TimerCb K V) :
    (armTimer st cb).1.lst = st.lst := rfl

@[simp]
theorem armTimer_heap (st : Cache K V) (cb : TimerCb K V) :
    (armTimer st cb).1.heap = st.heap := rfl

@[simp]
theorem armTimer_capacity (st : Cache K V) (cb : TimerCb K V) :
    (armTimer st cb).1.capacity = st.capacity := rfl

@[simp]
theorem armTimer_nextId (st : Cache K V) (cb : TimerCb K V) :
    (armTimer st cb).1.nextId = st.nextId := rfl

@[simp]
theorem moveToFront_items (st : Cache K V) (id : Nat) :
    (moveToFront st id).items = st.items := by
  unfold moveToFront
  split <;> rfl

@[simp]
theorem moveToFront_heap (st : Cache K V) (id : Nat) :
    (moveToFront st id).heap = st.heap := by
  unfold moveToFront
  split <;> rfl

@[simp]
theorem moveToFront_capacity (st : Cache K V) (id : Nat) :
    (moveToFront st id).capacity = st.capacity := by
  unfold moveToFront
  split <;> rfl

@[simp]
theorem moveToFront_nextId (st : Cache K V) (id : Nat) :
    (moveToFront st id).nextId = st.nextId := by
  unfold moveToFront
  split <;> rfl

@[simp]
theorem removeElem_items (st : Cache K V) (id : Nat) :
    (removeElem st id).items = st.items := rfl

@[simp]
theorem removeElem_heap (st : Cache K V) (id : Nat) :
    (removeElem st id).heap = st.heap := rfl

@[simp]
theorem removeElem_capacity (st : Cache K V) (id : Nat) :
    (removeElem st id).capacity = st.capacity := rfl

@[simp]
theorem removeElem_nextId (st : Cache K V) (id : Nat) :
    (removeElem st id).nextId = st.nextId := rfl

theorem lookupA_heapMap (l : List (Nat × Option (Item K V))) (id a : Nat)
    (f : Item K V → Item K V) :
    lookupA (l.map (fun q => (q.1, if q.1 = id then q.2.map f else q.2))) a =
      (lookupA l a).map (fun b => if a = id then b.map f else b) := by
  induction l with
  | nil => rfl
  | cons p l ih =>
      by_cases hp : p.1 = a
      · subst hp
        simp [lookupA_cons]
      · simp [lookupA_cons, hp, ih]

@[simp]
theorem getItem_setItem_self (st : Cache K V) (id : Nat) (f : Item K V → Item K V) :
    getItem (setItem st id f) id = (getItem st id).map f := by
  unfold getItem setItem
  simp only [lookupA_heapMap, if_pos rfl]
  cases lookupA st.heap id with
  | none => rfl
  | some o =>
      cases o with
      | none => rfl
      | some it => rfl

theorem getItem_setItem_ne (st : Cache K V) {id id2 : Nat} (f : Item K V → Item K V)
    (h : id2 ≠ id) : getItem (setItem st id f) id2 = getItem st id2 := by
  unfold getItem setItem
  simp only [lookupA_heapMap, if_neg h]
  cases lookupA st.heap id2 with
  | none => rfl
  | some o => rfl

@[simp]
theorem getItem_moveToFront (st : Cache K V) (id id2 : Nat) :
    getItem (moveToFront st id) id2 = getItem st id2 := by
  unfold getItem
  rw [moveToFront_heap]

@[simp]
theorem getItem_stopTimer (st : Cache K V) (t id : Nat) :
    getItem (stopTimer st t) id = getItem st id := rfl

@[simp]
theorem getItem_removeElem (st : Cache K V) (id id2 : Nat) :
    getItem (removeElem st id) id2 = getItem st id2 := rfl

@[simp]
theorem getItem_armTimer (st : Cache K V) (cb : TimerCb K V) (id : Nat) :
    getItem (armTimer st cb).1 id = getItem st id := rfl

theorem lookupA_append {A B : Type} [DecidableEq A] (l1 l2 : List (A × B)) (a : A) :
    lookupA (l1 ++ l2) a =
      match lookupA l1 a with
      | none => lookupA l2 a
      | some b => some b := by
  induction l1 with
  | nil => rfl
  | cons p l ih =>
      by_cases hp : p.1 = a
      · simp [lookupA_cons, hp]
      · simp [lookupA_cons, hp, ih]

theorem lookupA_none_of_all_ne {A B : Type} [DecidableEq A] {l : List (A × B)} {a : A}
    (h : ∀ q ∈ l, q.1 ≠ a) : lookupA l a = none := by
  induction l with
  | nil => rfl
  | cons p l ih =>
      rw [lookupA_cons, if_neg (h p (List.mem_cons_self p l))]
      exact ih (fun q hq => h q (List.mem_cons_of_mem p hq))

theorem runOps_append [Inhabited V] (l1 l2 : List (Op K V)) (st : Cache K V) :
    runOps (l1 ++ l2) st =
      (runOps l1 st).bind
        (fun r => (runOps l2 r.1).map (fun r2 => (r2.1, r.2 ++ r2.2))) := by
  induction l1 generalizing st with
  | nil =>
      simp only [List.nil_append, runOps, Option.some_bind]
      cases runOps l2 st with
      | none => rfl
      | some r2 => simp
  | cons op l ih =>
      simp only [List.cons_append, List.append_eq, runOps, Option.bind_eq_bind]
      cases runOp op st with
      | none => rfl
      | some r =>
          simp only [Option.some_bind, ih]
          cases runOps l r.1 with
          | none => rfl
          | some r1 =>
              simp only [Option.some_bind]
              cases runOps l2 r1.1 with
              | none => rfl
              | some r2 => simp [List.append_assoc]

/-- `Set` of a fresh key into a cache strictly below capacity: no eviction, one
push, the key bound to the fresh element. -/
theorem set_fresh (st : Cache K V) (k : K) (v : V)
    (h1 : lookupA st.items k = none) (h2 : (st.lst.length : Int) < st.capacity) :
    Set k v st = some
      ({ st with heap := (st.nextId, some { key := k, value := v }) :: st.heap,
                 lst := st.nextId :: st.lst,
                 items := (k, st.nextId) :: st.items,
                 nextId := st.nextId + 1 },
        if st.hasOnInsert then [Ev.insert k v] else []) := by
  have hc : ¬ ((st.lst.length : Int) ≥ st.capacity) := not_le.mpr h2
  unfold Set
  rw [h1]
  simp only [Option.pure_def, Option.bind_eq_bind, Option.some_bind, hc, if_false,
    pushFront, insertA, getItem, lookupA_cons, if_pos rfl, eraseA_eq_of_lookup_none h1]
  rfl

/-- `Set` of a fresh key into a cache at (or above) capacity with a non-empty
list: the back element is evicted, then the new entry pushed. -/
theorem set_full_fresh (st : Cache K V) (k : K) (v : V) (bid : Nat) (bit : Item K V)
    (h1 : lookupA st.items k = none) (h2 : (st.lst.length : Int) ≥ st.capacity)
    (hb : st.lst.getLast? = some bid) (hbit : getItem st bid = some bit) :
    Set k v st = some
      ({ st with heap := (st.nextId, some { key := k, value := v }) :: st.heap,
                 lst := st.nextId :: st.lst.erase bid,
                 items := (k, st.nextId) :: eraseA (eraseA st.items bit.key) k,
                 nextId := st.nextId + 1 },
        (if st.hasOnEvict then [Ev.evict bit.key bit.value] else []) ++
          (if st.hasOnInsert then [Ev.insert k v] else [])) := by
  unfold Set
  rw [h1]
  simp only [Option.pure_def, Option.bind_eq_bind, Option.some_bind, h2, if_true, hb, hbit,
    removeElem]
  simp [pushFront, insertA, getItem, lookupA_cons]

@[simp]
theorem fillAux_capacity (kvs : List (K × V)) (st : Cache K V) :
    (fillAux kvs st).capacity = st.capacity := by
  induction kvs generalizing st with
  | nil => rfl
  | cons p rest ih => exact ih _

@[simp]
theorem fillAux_nextId (kvs : List (K × V)) (st : Cache K V) :
    (fillAux kvs st).nextId = st.nextId + kvs.length := by
  induction kvs generalizing st with
  | nil => rfl
  | cons p rest ih =>
      show (fillAux rest _).nextId = _
      rw [ih]
      simp [List.length_cons]
      omega

@[simp]
theorem fillAux_hasOnInsert (kvs : List (K × V)) (st : Cache K V) :
    (fillAux kvs st).hasOnInsert = st.hasOnInsert := by
  induction kvs generalizing st with
  | nil => rfl
  | cons p rest ih => exact ih _

@[simp]
theorem fillAux_hasOnEvict (kvs : List (K × V)) (st : Cache K V) :
    (fillAux kvs st).hasOnEvict = st.hasOnEvict := by
  induction kvs generalizing st with
  | nil => rfl
  | cons p rest ih => exact ih _

theorem fillAux_lst (kvs : List (K × V)) (st : Cache K V) :
    (fillAux kvs st).lst = idsDesc st.nextId kvs.length ++ st.lst := by
  induction kvs generalizing st with
  | nil => rfl
  | cons p rest ih =>
      cases p with
      | mk k v =>
          show (fillAux rest _).lst = _
          rw [ih]
          show idsDesc (st.nextId + 1) rest.length ++ (st.nextId :: st.lst) = _
          rw [List.length_cons]
          show _ = (idsDesc (st.nextId + 1) rest.length ++ [st.nextId]) ++ st.lst
          rw [List.append_assoc]
          rfl

theorem fillAux_items (kvs : List (K × V)) (st : Cache K V) :
    (fillAux kvs st).items = pairsDesc kvs st.nextId ++ st.items := by
  induction kvs generalizing st with
  | nil => rfl
  | cons p rest ih =>
      cases p with
      | mk k v =>
          show (fillAux rest _).items = _
          rw [ih]
          show pairsDesc rest (st.nextId + 1) ++ ((k, st.nextId) :: st.items) = _
          show _ = (pairsDesc rest (st.nextId + 1) ++ [(k, st.nextId)]) ++ st.items
          rw [List.append_assoc]
          rfl

theorem fillAux_heap (kvs : List (K × V)) (st : Cache K V) :
    (fillAux kvs st).heap = heapDesc kvs st.nextId ++ st.heap := by
  induction kvs generalizing st with
  | nil => rfl
  | cons p rest ih =>
      cases p with
      | mk k v =>
          show (fillAux rest _).heap = _
          rw [ih]
          show heapDesc rest (st.nextId + 1) ++
              ((st.nextId, some { key := k, value := v }) :: st.heap) = _
          show _ = (heapDesc rest (st.nextId + 1) ++
              [(st.nextId, some { key := k, value := v })]) ++ st.heap
          rw [List.append_assoc]
          rfl

@[simp]
theorem idsDesc_length (n0 len : Nat) : (idsDesc n0 len).length = len := by
  induction len generalizing n0 with
  | zero => rfl
  | succ len ih =>
      show (idsDesc (n0 + 1) len ++ [n0]).length = len + 1
      rw [List.length_append, ih]
      rfl

theorem idsDesc_getLast (n0 len : Nat) : (idsDesc n0 (len + 1)).getLast? = some n0 := by
  show (idsDesc (n0 + 1) len ++ [n0]).getLast? = some n0
  exact List.getLast?_concat _

theorem pairsDesc_lookup_none (kvs : List (K × V)) (n0 : Nat) (k : K)
    (h : k ∉ kvs.map Prod.fst) : lookupA (pairsDesc kvs n0) k = none := by
  induction kvs generalizing n0 with
  | nil => rfl
  | cons p rest ih =>
      cases p with
      | mk k1 v1 =>
          have hne : k1 ≠ k := by
            intro hc
            exact h (by simp [hc])
          have hrest : k ∉ rest.map Prod.fst := fun hc => h (by simp [hc])
          show lookupA (pairsDesc rest (n0 + 1) ++ [(k1, n0)]) k = none
          rw [lookupA_append, ih _ hrest]
          simp [lookupA_cons, hne]

theorem pairsDesc_lookup_isSome (kvs : List (K × V)) (n0 : Nat) (k : K)
    (h : k ∈ kvs.map Prod.fst) : (lookupA (pairsDesc kvs n0) k).isSome = true := by
  induction kvs generalizing n0 with
  | nil => simp at h
  | cons p rest ih =>
      cases p with
      | mk k1 v1 =>
          show (lookupA (pairsDesc rest (n0 + 1) ++ [(k1, n0)]) k).isSome = true
          rw [lookupA_append]
          cases hfront : lookupA (pairsDesc rest (n0 + 1)) k with
          | some b => rfl
          | none =>
              rcases List.mem_cons.mp h with hk | hk
              · simp only [List.map_cons] at hk ⊢
                simp [lookupA_cons, hk.symm]
              · have := ih (n0 + 1) (by simpa using hk)
                rw [hfront] at this
                simp at this

theorem heapDesc_mem_ge (kvs : List (K × V)) (n0 : Nat) :
    ∀ q ∈ heapDesc kvs n0, n0 ≤ q.1 := by
  induction kvs generalizing n0 with
  | nil => intro q hq; cases hq
  | cons p rest ih =>
      cases p with
      | mk k v =>
          intro q hq
          rcases List.mem_append.mp hq with hq | hq
          · have := ih (n0 + 1) q hq
            omega
          · rcases List.mem_singleton.mp hq with rfl
            exact le_refl _

theorem heapDesc_lookup_head (k : K) (v : V) (kvs : List (K × V)) (n0 : Nat) :
    lookupA (heapDesc ((k, v) :: kvs) n0) n0 = some (some { key := k, value := v }) := by
  show lookupA (heapDesc kvs (n0 + 1) ++ [(n0, some { key := k, value := v })]) n0 =
    some (some { key := k, value := v })
  rw [lookupA_append, lookupA_none_of_all_ne]
  · simp [lookupA_cons]
  · intro q hq
    have := heapDesc_mem_ge kvs (n0 + 1) q hq
    omega

/-- Filling a cache with fresh, pairwise distinct keys under capacity runs every
`Set` through the no-eviction path: the run succeeds, produces the closed-form
state and, when `onInsert` is unregistered, an empty event log. -/
theorem runOps_setsOf_fresh [Inhabited V] (kvs : List (K × V)) (st : Cache K V)
    (hfresh : ∀ p ∈ kvs, lookupA st.items p.1 = none)
    (hnd : (kvs.map Prod.fst).Nodup)
    (hcap : (st.lst.length + kvs.length : Int) ≤ st.capacity)
    (hins : st.hasOnInsert = false) :
    runOps (setsOf kvs) st = some (fillAux kvs st, []) := by
  induction kvs generalizing st with
  | nil => rfl
  | cons p rest ih =>
      cases p with
      | mk k v =>
          have hk : lookupA st.items k = none := hfresh (k, v) (List.mem_cons_self _ _)
          have hlen : (st.lst.length : Int) < st.capacity := by
            simp only [List.length_cons] at hcap
            push_cast at hcap ⊢
            omega
          have hset := set_fresh st k v hk hlen
          have hev : (if st.hasOnInsert then [Ev.insert k v] else ([] : List (Ev K V))) = [] := by
            rw [hins]
            rfl
          rw [hev] at hset
          show runOps (Op.set k v :: setsOf rest) st = _
          rw [runOps]
          rw [show runOp (Op.set k v) st = Set k v st from rfl, hset]
          have hknotrest : k ∉ rest.map Prod.fst := by
            simp only [List.map_cons, List.nodup_cons] at hnd
            exact hnd.1
          have hndrest : (rest.map Prod.fst).Nodup := by
            simp only [List.map_cons, List.nodup_cons] at hnd
            exact hnd.2
          simp only [Option.bind_eq_bind, Option.some_bind]
          rw [ih]
          · simp [fillAux]
          · intro q hq
            rw [lookupA_cons]
            have : k ≠ q.1 := by
              intro hc
              exact hknotrest (hc ▸ List.mem_map_of_mem Prod.fst hq)
            rw [if_neg this]
            exact hfresh q (List.mem_cons_of_mem _ hq)
          · exact hndrest
          · simp only [List.length_cons] at hcap
            simp only [List.length_cons]
            push_cast at hcap ⊢
            omega
          · exact hins

/-- Claim C1: the LRU property.  For capacity `cap ≥ 1` (expressed as
`mid.length + 1 = cap`) with `onEvict` registered and no other hook, inserting
`cap + 1` pairwise-distinct keys with no intervening reads completes, leaves
every key except the first-inserted one present, and produces the event log
`[evict k0 v0]` — with only `onEvict` registered the log lists exactly the
`onEvict` invocations, so this is "`onEvict` fired exactly once, with the first
key and its value".  The second conjunct is the claim's concrete scenario:
capacity 2, `Set("a",1); Set("b",2); Set("c",3)` gives `Has("a") = false`,
`Has("b") = Has("c") = true` and one `onEvict` call with `("a", 1)`. -/
theorem c1_lru_evicts_first_inserted [Inhabited V] (cap : Nat) (k0 : K) (v0 : V)
    (mid : List (K × V)) (lastp : K × V)
    (hcap : mid.length + 1 = cap)
    (hnd : (((k0, v0) :: mid ++ [lastp]).map Prod.fst).Nodup) :
    (∃ stf, runOps (setsOf ((k0, v0) :: mid ++ [lastp])) (OnEvictReg (New (cap : Int))) =
        some (stf, [Ev.evict k0 v0]) ∧
      Has k0 stf = false ∧ Has lastp.1 stf = true ∧ ∀ p ∈ mid, Has p.1 stf = true) ∧
    (runOps [Op.set "a" (1 : Int), Op.set "b" 2, Op.set "c" 3]
        (OnEvictReg (New 2 : Cache String Int))).map
      (fun r => (Has "a" r.1, Has "b" r.1, Has "c" r.1, r.2)) =
      some (false, true, true, [Ev.evict "a" 1]) := by
  refine ⟨?_, by decide⟩
  have hnd' := hnd
  simp only [List.map_cons, List.map_append, List.map_nil] at hnd'
  have hcons := List.nodup_cons.mp hnd'
  have h0 := hcons.1
  have hrest := hcons.2
  have h0mid : k0 ∉ mid.map Prod.fst := fun hc => h0 (List.mem_append.mpr (Or.inl hc))
  have h0last : k0 ≠ lastp.1 := by
    intro hc
    exact h0 (List.mem_append.mpr (Or.inr (by simp [hc])))
  have hmidnd : (mid.map Prod.fst).Nodup := List.Nodup.of_append_left hrest
  have hdisj := List.disjoint_of_nodup_append hrest
  have hlastmid : ∀ p ∈ mid, p.1 ≠ lastp.1 := by
    intro p hp hc
    exact hdisj (List.mem_map_of_mem Prod.fst hp) (by simp [hc])
  have hfill := runOps_setsOf_fresh ((k0, v0) :: mid)
    (OnEvictReg (New (cap : Int)) : Cache K V) (fun p hp => rfl)
    (by
      rw [List.map_cons]
      exact List.nodup_cons.mpr ⟨h0mid, hmidnd⟩)
    (by
      show ((0 : Nat) : Int) + (((k0, v0) :: mid).length : Int) ≤ (cap : Int)
      rw [List.length_cons]
      push_cast
      omega)
    rfl
  set F := fillAux ((k0, v0) :: mid) (OnEvictReg (New (cap : Int)) : Cache K V) with hF
  have hFitems : F.items = pairsDesc ((k0, v0) :: mid) 0 := by
    rw [hF, fillAux_items]
    show pairsDesc ((k0, v0) :: mid) 0 ++ [] = pairsDesc ((k0, v0) :: mid) 0
    exact List.append_nil _
  have hFlst : F.lst = idsDesc 0 (mid.length + 1) := by
    rw [hF, fillAux_lst]
    show idsDesc 0 (mid.length + 1) ++ [] = idsDesc 0 (mid.length + 1)
    exact List.append_nil _
  have hFcap : F.capacity = (cap : Int) := by
    rw [hF, fillAux_capacity]
    rfl
  have hFevict : F.hasOnEvict = true := by
    rw [hF, fillAux_hasOnEvict]
    rfl
  have hFins : F.hasOnInsert = false := by
    rw [hF, fillAux_hasOnInsert]
    rfl
  have h1 : lookupA F.items lastp.1 = none := by
    rw [hFitems]
    refine pairsDesc_lookup_none _ _ _ ?_
    rw [List.map_cons]
    intro hc
    rcases List.mem_cons.mp hc with hc | hc
    · exact h0last hc.symm
    · rcases List.mem_map.mp hc with ⟨p, hp, hpk⟩
      exact hlastmid p hp hpk
  have h2 : (F.lst.length : Int) ≥ F.capacity := by
    rw [hFlst, hFcap, idsDesc_length]
    push_cast
    omega
  have hb : F.lst.getLast? = some 0 := by
    rw [hFlst]
    exact idsDesc_getLast 0 mid.length
  have hbit : getItem F 0 = some { key := k0, value := v0 } := by
    have hlook : lookupA F.heap 0 = some (some { key := k0, value := v0 }) := by
      rw [hF, fillAux_heap]
      have hbase : (OnEvictReg (New (cap : Int)) : Cache K V).heap = [] := rfl
      have hn0 : (OnEvictReg (New (cap : Int)) : Cache K V).nextId = 0 := rfl
      rw [hbase, hn0, List.append_nil]
      exact heapDesc_lookup_head k0 v0 mid 0
    unfold getItem
    rw [hlook]
  have hset := set_full_fresh F lastp.1 lastp.2 0 { key := k0, value := v0 } h1 h2 hb hbit
  refine ⟨{ F with
      heap := (F.nextId, some { key := lastp.1, value := lastp.2 }) :: F.heap,
      lst := F.nextId :: F.lst.erase 0,
      items := (lastp.1, F.nextId) :: eraseA (eraseA F.items k0) lastp.1,
      nextId := F.nextId + 1 }, ?_, ?_, ?_, ?_⟩
  · have hsets : setsOf ((k0, v0) :: mid ++ [lastp]) =
        setsOf ((k0, v0) :: mid) ++ setsOf [lastp] := by
      simp [setsOf]
    rw [hsets, runOps_append, hfill]
    rw [Option.some_bind]
    rw [show setsOf [lastp] = [Op.set lastp.1 lastp.2] from rfl]
    rw [runOps, show runOp (Op.set lastp.1 lastp.2) F = Set lastp.1 lastp.2 F from rfl,
      hset]
    simp [hFevict, hFins, runOps]
  · show (lookupA ((lastp.1, F.nextId) :: eraseA (eraseA F.items k0) lastp.1) k0).isSome =
      false
    rw [lookupA_cons, if_neg (fun hc => h0last hc.symm),
      lookupA_eraseA_ne _ h0last, lookupA_eraseA_self]
    rfl
  · show (lookupA ((lastp.1, F.nextId) :: eraseA (eraseA F.items k0) lastp.1) lastp.1).isSome =
      true
    rw [lookupA_cons, if_pos rfl]
    rfl
  · intro p hp
    have hpne : p.1 ≠ lastp.1 := hlastmid p hp
    have hpk0 : p.1 ≠ k0 := by
      intro hc
      exact h0mid (hc ▸ List.mem_map_of_mem Prod.fst hp)
    show (lookupA ((lastp.1, F.nextId) :: eraseA (eraseA F.items k0) lastp.1) p.1).isSome =
      true
    rw [lookupA_cons, if_neg (fun hc => hpne hc.symm),
      lookupA_eraseA_ne _ hpne, lookupA_eraseA_ne _ hpk0, hFitems]
    refine pairsDesc_lookup_isSome _ _ _ ?_
    rw [List.map_cons]
    exact List.mem_cons_of_mem _ (List.mem_map_of_mem Prod.fst hp)

/-- Witness for claim C1's theorem: instantiated at the concrete scenario
(capacity 2, keys `"a", "b", "c"`), with both hypotheses discharged there. -/
theorem c1_lru_evicts_first_inserted_witness :
    (∃ stf, runOps (setsOf ((("a", (1 : Int))) :: [("b", 2)] ++ [("c", 3)]))
        (OnEvictReg (New ((2 : Nat) : Int))) = some (stf, [Ev.evict "a" 1]) ∧
      Has "a" stf = false ∧ Has ("c", (3 : Int)).1 stf = true ∧
      ∀ p ∈ [("b", (2 : Int))], Has p.1 stf = true) ∧
    (runOps [Op.set "a" (1 : Int), Op.set "b" 2, Op.set "c" 3]
        (OnEvictReg (New 2 : Cache String Int))).map
      (fun r => (Has "a" r.1, Has "b" r.1, Has "c" r.1, r.2)) =
      some (false, true, true, [Ev.evict "a" 1]) :=
  c1_lru_evicts_first_inserted 2 "a" 1 [("b", 2)] ("c", 3) (by decide) (by decide)

/-- Running `Refresh` on a present key with a live item succeeds, leaves map,
list and every item's value unchanged, and emits no events. -/
theorem refresh_present (st : Cache K V) (k : K) (ttl : Int) (eid : Nat) (it : Item K V)
    (h1 : lookupA st.items k = some eid) (hg : getItem st eid = some it) :
    ∃ st1, Refresh k ttl st = some (st1, []) ∧ st1.items = st.items ∧ st1.lst = st.lst ∧
      (getItem st1 eid).map Item.value = some it.value := by
  unfold Refresh
  rw [h1]
  simp only [hg, Option.some_bind]
  cases hit : it.timer with
  | none =>
      split_ifs with ht
      · refine ⟨_, rfl, ?_, ?_, ?_⟩ <;> simp [hg, hit]
      · refine ⟨_, rfl, ?_, ?_, ?_⟩ <;> simp [hg, hit]
  | some t =>
      split_ifs with ht
      · refine ⟨_, rfl, ?_, ?_, ?_⟩ <;> simp [hg, hit]
      · refine ⟨_, rfl, ?_, ?_, ?_⟩ <;> simp [hg, hit]

/-- Claim C10 (implicit): attaching a watch to an absent key makes the key
observably present: `Has` turns true, `Len` grows by one, and `Get` returns the
zero value of the value type together with `true` — indistinguishable from an
entry whose stored value is the zero value. -/
theorem c10_onwatch_placeholder_visible [Inhabited V] (st : Cache K V) (k : K)
    (h : lookupA st.items k = none) :
    ∃ st1, OnWatch k st = some (st1, []) ∧ Has k st1 = true ∧
      Len st1 = Len st + 1 ∧
      (Get k st1).map (fun r => (r.1, r.2.1)) = some ((default : V), true) := by
  refine ⟨{ st with
              heap := (st.nextId, some { key := k, value := default, onWatch := true }) :: st.heap,
              lst := st.nextId :: st.lst,
              nextId := st.nextId + 1,
              items := insertA st.items k st.nextId }, ?_, ?_, ?_, ?_⟩
  · unfold OnWatch
    rw [h]
    rfl
  · simp [Has, insertA]
  · simp [Len, insertA, eraseA_eq_of_lookup_none h]
  · simp only [Get, Refresh, insertA, lookupA_cons, if_pos rfl, getItem, setItem,
      moveToFront, Option.bind]
    norm_num

/-- Witness for claim C10's theorem: the concrete scenario of the claim, a
fresh capacity-2 cache and key `"a"`, with the hypothesis discharged there. -/
theorem c10_onwatch_placeholder_visible_witness :
    ∃ st1, OnWatch "a" (New 2 : Cache String Int) = some (st1, []) ∧
      Has "a" st1 = true ∧ Len st1 = Len (New 2 : Cache String Int) + 1 ∧
      (Get "a" st1).map (fun r => (r.1, r.2.1)) = some ((default : Int), true) :=
  c10_onwatch_placeholder_visible (New 2) "a" rfl

/-- Claim C5: `Get` on a present key returns its stored value with `true` and
promotes its element to the front of the recency list, leaving the entry map
unchanged; on an absent key it returns the zero value with `false` and no state
change.  Consequently, at capacity 2 with `onEvict` registered, the sequence
`Set("a",1); Set("b",2); Get("a"); Set("c",3)` evicts `b`, not `a`: `onEvict`
fires exactly once, with `("b", 2)`. -/
theorem c5_get_promotes_recency [Inhabited V] (st : Cache K V) (k : K) :
    (∀ eid it, lookupA st.items k = some eid → getItem st eid = some it → eid ∈ st.lst →
      ∃ st2, Get k st = some (it.value, true, st2) ∧
        st2.lst = eid :: st.lst.erase eid ∧ st2.items = st.items) ∧
    (lookupA st.items k = none → Get k st = some ((default : V), false, st)) ∧
    (runOps [Op.set "a" (1 : Int), Op.set "b" 2, Op.get "a", Op.set "c" 3]
        (OnEvictReg (New 2))).map (fun r => (Has "a" r.1, Has "b" r.1, Has "c" r.1, r.2)) =
      some (true, false, true, [Ev.evict "b" 2]) := by
  refine ⟨?_, ?_, by decide⟩
  · intro eid it h1 hg h3
    obtain ⟨st1, hR, hi, hl, hv⟩ := refresh_present st k it.ttl eid it h1 hg
    obtain ⟨a, ha, hav⟩ := Option.map_eq_some'.mp hv
    have h3' : eid ∈ st1.lst := by rw [hl]; exact h3
    have hmv : moveToFront st1 eid = { st1 with lst := eid :: st1.lst.erase eid } := by
      unfold moveToFront
      rw [if_pos h3']
    have hg2 : getItem (moveToFront st1 eid) eid = some a := by
      rw [getItem_moveToFront]
      exact ha
    refine ⟨moveToFront st1 eid, ?_, ?_, ?_⟩
    · unfold Get
      rw [h1]
      simp only [hg, Option.bind_eq_bind, Option.some_bind, hR, hg2, hav]
    · rw [hmv, hl]
    · rw [hmv]
      exact hi
  · intro h
    unfold Get
    rw [h]

/-- Witness for claim C5's theorem: its present-key part instantiated at a
concrete one-entry cache, with every hypothesis discharged there. -/
theorem c5_get_promotes_recency_witness :
    ∃ st2, Get "x" c5WitnessState = some ((7 : Int), true, st2) ∧
      st2.lst = 0 :: c5WitnessState.lst.erase 0 ∧ st2.items = c5WitnessState.items :=
  (c5_get_promotes_recency c5WitnessState "x").1 0 { key := "x", value := 7 }
    (by decide) (by decide) (by decide)

/-- Claim C2: the quiescence invariant fails on the code.  After the completed
sequence `Set("a",1); OnWatch("a",…); Set("a",2)` (capacity 2) the entry map
holds key `"a"` once, but the recency list holds two elements whose items both
carry key `"a"`: the overwrite path of `Set` moves the old element to the front
and pushes a fresh element without ever removing the old one. -/
theorem c2_recency_list_duplicates_key :
    (runOps [Op.set "a" (1 : Int), Op.onWatch "a", Op.set "a" 2] (New 2)).map
      (fun r => (r.1.items.map Prod.fst,
                 r.1.lst.map (fun id => (getItem r.1 id).map Item.key))) =
      some (["a"], [some "a", some "a"]) := by decide

/-- Claim C3: `Set` on an existing key does not complete.  For a key stored by
`Set` (no watch attached), the overwrite path builds `newItem = nil`, pushes it,
and then dereferences `c.items[key].Value.(*Item).onWatch` — a nil-pointer
panic, modelled by `none`. -/
theorem c3_set_existing_key_panics :
    runOps [Op.set "a" (1 : Int), Op.set "a" 2] (New 2) = none := by decide

/-- Claim C4 counterexample: `OnWatch` on an absent key materializes a
placeholder entry with no capacity check.  With capacity 1 and one entry
present, `OnWatch("b",…)` completes and leaves two entries in the map. -/
theorem c4_onwatch_exceeds_capacity :
    (runOps [Op.set "a" (1 : Int), Op.onWatch "b"] (New 1)).map
      (fun r => ((Len r.1 : Int), r.1.capacity)) = some (2, 1) := by decide

/-- Claim C6: the scheduled fire of a handle rearmed by `Refresh` does not fire
`onExpire`.  With `onDelete` and `onExpire` both registered, after
`SetWithTTL("k",1,100); Refresh("k",50)` the armed handle is timer 1; firing it
removes the key but invokes `onDelete` twice (once directly from the closure,
once from the `Delete` call inside it) and `onExpire` never. -/
theorem c6_refresh_armed_fire_fires_ondelete_twice :
    (runOps [Op.setWithTTL "k" (1 : Int) 100, Op.refresh "k" 50, Op.fire 1]
        (OnDeleteReg (OnExpireReg (New 2)))).map (fun r => (Has "k" r.1, r.2)) =
      some (false, [Ev.delete "k" 1, Ev.delete "k" 1]) := by decide

/-- Claim C7: `SetWithTTL` on a key stored by plain `Set` does not complete: the
code calls `item.Value.(*Item).timer.Stop()` without a nil check, and a
plain-`Set` entry has a nil timer. -/
theorem c7_setwithttl_on_plain_set_key_panics :
    runOps [Op.set "a" (1 : Int), Op.setWithTTL "a" 2 100] (New 2) = none := by decide

/-- Claim C8: `SetCapacity(-1)` does not terminate.  On a fresh cache the loop
condition `list.Len() > capacity` holds while `Back()` is nil, so nothing ever
changes; on a non-empty cache the loop drains the list and then spins the same
way.  `none` is the divergence marker of `evictLoop`. -/
theorem c8_setcapacity_negative_diverges :
    SetCapacity (-1) (New 2 : Cache String Int) = none ∧
      runOps [Op.set "a" (1 : Int), Op.setCapacity (-1)] (New 2) = none := by decide

/-- Claim C9: `Update` overwrites the stored value before invoking `onUpdate`,
so the hook receives the new value in both value positions.  After
`Set("a",1); Update("a",2)` with `onUpdate` registered, the hook is invoked
with `("a", 2, 2)` — the old value 1 is not passed. -/
theorem c9_update_hook_receives_new_value_twice :
    (runOps [Op.set "a" (1 : Int), Op.update "a" 2] (OnUpdateReg (New 2))).map
      (fun r => ((Get "a" r.1).map (fun g => (g.1, g.2.1)), r.2)) =
      some (some (2, true), [Ev.update "a" 2 2]) := by decide

theorem lookupA_some_mem {A B : Type} [DecidableEq A] {l : List (A × B)} {a : A} {b : B}
    (h : lookupA l a = some b) : (a, b) ∈ l := by
  induction l with
  | nil => cases h
  | cons p l ih =>
      rw [lookupA_cons] at h
      by_cases hp : p.1 = a
      · rw [if_pos hp] at h
        cases h
        cases p with
        | mk p1 p2 =>
            cases hp
            exact List.mem_cons_self _ _
      · rw [if_neg hp] at h
        exact List.mem_cons_of_mem _ (ih h)

theorem eraseA_sublist {A B : Type} [DecidableEq A] (l : List (A × B)) (a : A) :
    (eraseA l a).Sublist l := List.filter_sublist l

theorem mem_eraseA {A B : Type} [DecidableEq A] {l : List (A × B)} {a : A} {p : A × B}
    (h : p ∈ eraseA l a) : p ∈ l ∧ p.1 ≠ a := by
  have := List.mem_filter.mp h
  refine ⟨this.1, ?_⟩
  simpa using this.2

theorem eraseA_keys_nodup {A B : Type} [DecidableEq A] {l : List (A × B)} {a : A}
    (h : (l.map Prod.fst).Nodup) : ((eraseA l a).map Prod.fst).Nodup :=
  ((eraseA_sublist l a).map Prod.fst).nodup h

theorem length_eraseA_le {A B : Type} [DecidableEq A] (l : List (A × B)) (a : A) :
    (eraseA l a).length ≤ l.length := (eraseA_sublist l a).length_le

/-- Removing a live element together with the map binding of its key preserves
well-formedness: no surviving binding can point at the removed element, because
bindings determine keys through the heap. -/
theorem wf_kill (st : Cache K V) (b : Nat) (itb : Item K V)
    (hb : lookupA st.heap b = some (some itb)) (h : WF st) :
    WF { st with items := eraseA st.items itb.key, lst := st.lst.erase b } := by
  obtain ⟨hnd, hpt, hid⟩ := h
  refine ⟨eraseA_keys_nodup hnd, ?_, hid⟩
  intro p hp
  obtain ⟨hmem, hne⟩ := mem_eraseA hp
  obtain ⟨it, hlook, hkey, hlst⟩ := hpt p hmem
  refine ⟨it, hlook, hkey, ?_⟩
  have hpb : p.2 ≠ b := by
    intro hc
    rw [hc, hb] at hlook
    cases hlook
    exact hne (hkey ▸ rfl)
  exact (List.mem_erase_of_ne hpb).mpr hlst

/-- Pushing a fresh element carrying key `k` and rebinding `k` to it preserves
well-formedness. -/
theorem wf_pushInsert (st : Cache K V) (k : K) (it : Item K V) (hk : it.key = k)
    (h : WF st) :
    WF { st with heap := (st.nextId, some it) :: st.heap,
                 lst := st.nextId :: st.lst,
                 items := insertA st.items k st.nextId,
                 nextId := st.nextId + 1 } := by
  obtain ⟨hnd, hpt, hid⟩ := h
  refine ⟨?_, ?_, ?_⟩
  · show ((k, st.nextId) :: eraseA st.items k).map Prod.fst |>.Nodup
    rw [List.map_cons]
    refine List.nodup_cons.mpr ⟨?_, eraseA_keys_nodup hnd⟩
    intro hc
    obtain ⟨p, hp, hpk⟩ := List.mem_map.mp hc
    exact (mem_eraseA hp).2 hpk
  · intro p hp
    rcases List.mem_cons.mp hp with rfl | hp
    · exact ⟨it, by rw [lookupA_cons, if_pos rfl], hk, List.mem_cons_self _ _⟩
    · obtain ⟨hmem, _⟩ := mem_eraseA hp
      obtain ⟨it2, hlook, hkey, hlst⟩ := hpt p hmem
      have hlt : p.2 < st.nextId := hid _ (lookupA_some_mem hlook)
      refine ⟨it2, ?_, hkey, List.mem_cons_of_mem _ hlst⟩
      rw [lookupA_cons, if_neg (by omega)]
      exact hlook
  · intro q hq
    rcases List.mem_cons.mp hq with rfl | hq
    · show st.nextId < st.nextId + 1
      omega
    · show q.1 < st.nextId + 1
      have := hid q hq
      omega

theorem wf_moveToFront (st : Cache K V) (id : Nat) (h : WF st) : WF (moveToFront st id) := by
  unfold moveToFront
  split
  · obtain ⟨hnd, hpt, hid⟩ := h
    refine ⟨hnd, ?_, hid⟩
    intro p hp
    obtain ⟨it, hlook, hkey, hlst⟩ := hpt p hp
    refine ⟨it, hlook, hkey, ?_⟩
    by_cases hpb : p.2 = id
    · rw [hpb]
      exact List.mem_cons_self _ _
    · exact List.mem_cons_of_mem _ ((List.mem_erase_of_ne hpb).mpr hlst)
  · exact h

theorem moveToFront_length (st : Cache K V) (id : Nat) :
    (moveToFront st id).lst.length = st.lst.length := by
  unfold moveToFront
  split
  · next hmem =>
      show (id :: st.lst.erase id).length = st.lst.length
      rw [List.length_cons, List.length_erase_of_mem hmem]
      have := List.length_pos.mpr (List.ne_nil_of_mem hmem)
      omega
  · rfl

theorem wf_stopTimer (st : Cache K V) (t : Nat) (h : WF st) : WF (stopTimer st t) := h

theorem wf_armTimer (st : Cache K V) (cb : TimerCb K V) (h : WF st) :
    WF (armTimer st cb).1 := h

theorem wf_setItem (st : Cache K V) (id : Nat) (f : Item K V → Item K V)
    (hf : ∀ i, (f i).key = i.key) (h : WF st) : WF (setItem st id f) := by
  obtain ⟨hnd, hpt, hid⟩ := h
  refine ⟨hnd, ?_, ?_⟩
  · intro p hp
    obtain ⟨it, hlook, hkey, hlst⟩ := hpt p hp
    show ∃ it2, lookupA (setItem st id f).heap p.2 = some (some it2) ∧ _ ∧ _
    unfold setItem
    simp only [lookupA_heapMap, hlook]
    by_cases hpb : p.2 = id
    · refine ⟨f it, ?_, by rw [hf, hkey], hlst⟩
      simp [hpb]
    · refine ⟨it, ?_, hkey, hlst⟩
      simp [hpb]
  · intro q hq
    obtain ⟨q0, hq0, hq0e⟩ := List.mem_map.mp hq
    have := hid q0 hq0
    rw [← hq0e]
    exact this

theorem getItem_some {st : Cache K V} {id : Nat} {it : Item K V}
    (h : getItem st id = some it) : lookupA st.heap id = some (some it) := by
  unfold getItem at h
  cases hl : lookupA st.heap id with
  | none => rw [hl] at h; cases h
  | some o =>
      cases o with
      | none => rw [hl] at h; cases h
      | some it2 =>
          rw [hl] at h
          cases h
          rfl

/-- The key a map binding carries agrees with the key of the item its element
holds (from well-formedness). -/
theorem wf_key_of_binding {st : Cache K V} {k : K} {eid : Nat} {it : Item K V}
    (hw : WF st) (hl : lookupA st.items k = some eid) (hg : getItem st eid = some it) :
    it.key = k := by
  obtain ⟨it2, hlook, hkey, _⟩ := hw.2.1 (k, eid) (lookupA_some_mem hl)
  rw [getItem_some hg] at hlook
  cases hlook
  exact hkey

theorem wf_setItem2 (st : Cache K V) (id : Nat) {f : Item K V → Item K V}
    (h : WF st) (hf : ∀ i, (f i).key = i.key) : WF (setItem st id f) :=
  wf_setItem st id f hf h

theorem inv_refresh (st : Cache K V) (k : K) (ttl : Int) {st2 : Cache K V}
    {evs : List (Ev K V)} (h : Refresh k ttl st = some (st2, evs))
    (hw : WF st) (hc : CapOK st) : WF st2 ∧ CapOK st2 := by
  unfold Refresh at h
  cases hl : lookupA st.items k with
  | none =>
      rw [hl] at h
      cases h
      exact ⟨hw, hc⟩
  | some eid =>
      rw [hl] at h
      simp only [Option.bind_eq_bind, Option.bind_eq_some, Option.some.injEq,
        Prod.mk.injEq] at h
      obtain ⟨it, hg, hst, hevs⟩ := h
      subst hst
      constructor
      · refine wf_setItem2 _ _ ?_ (fun i => rfl)
        split
        · refine wf_setItem2 _ _ ?_ (fun i => rfl)
          apply wf_armTimer
          split <;> exact hw
        · split <;> exact hw
      · constructor
        · show ((setItem _ _ _).lst.length : Int) ≤ (setItem _ _ _).capacity
          rw [setItem_lst, setItem_capacity]
          split
          · rw [setItem_lst, setItem_capacity, armTimer_lst, armTimer_capacity]
            split <;> exact hc.1
          · split <;> exact hc.1
        · show (1 : Int) ≤ (setItem _ _ _).capacity
          rw [setItem_capacity]
          split
          · rw [setItem_capacity, armTimer_capacity]
            split <;> exact hc.2
          · split <;> exact hc.2

theorem inv_update (st : Cache K V) (k : K) (v : V) {st2 : Cache K V}
    {evs : List (Ev K V)} (h : Update k v st = some (st2, evs))
    (hw : WF st) (hc : CapOK st) : WF st2 ∧ CapOK st2 := by
  unfold Update at h
  cases hl : lookupA st.items k with
  | none =>
      rw [hl] at h
      cases h
      exact ⟨hw, hc⟩
  | some eid =>
      rw [hl] at h
      simp only [Option.bind_eq_bind, Option.bind_eq_some, Option.some.injEq,
        Prod.mk.injEq] at h
      obtain ⟨it, hg, it2, hg2, hst, hevs⟩ := h
      subst hst
      exact ⟨wf_setItem2 _ _ hw (fun i => rfl), hc⟩

theorem inv_updateWithTTL (st : Cache K V) (k : K) (v : V) (ttl : Int) {st2 : Cache K V}
    {evs : List (Ev K V)} (h : UpdateWithTTL k v ttl st = some (st2, evs))
    (hw : WF st) (hc : CapOK st) : WF st2 ∧ CapOK st2 := by
  unfold UpdateWithTTL at h
  cases hl : lookupA st.items k with
  | none =>
      rw [hl] at h
      cases h
      exact ⟨hw, hc⟩
  | some eid =>
      rw [hl] at h
      simp only [Option.bind_eq_bind, Option.bind_eq_some, Option.some.injEq,
        Prod.mk.injEq] at h
      obtain ⟨it, hg, it2, hg2, hst, hevs⟩ := h
      subst hst
      constructor
      · refine wf_setItem2 _ _ ?_ (fun i => rfl)
        split
        · apply wf_armTimer
          split <;> exact hw
        · split <;> exact hw
      · constructor
        · show ((setItem _ _ _).lst.length : Int) ≤ (setItem _ _ _).capacity
          rw [setItem_lst, setItem_capacity]
          split
          · rw [armTimer_lst, armTimer_capacity]
            split <;> exact hc.1
          · split <;> exact hc.1
        · show (1 : Int) ≤ (setItem _ _ _).capacity
          rw [setItem_capacity]
          split
          · rw [armTimer_capacity]
            split <;> exact hc.2
          · split <;> exact hc.2

theorem inv_delete (st : Cache K V) (k : K) {st2 : Cache K V}
    {evs : List (Ev K V)} (h : Delete k st = some (st2, evs))
    (hw : WF st) (hc : CapOK st) : WF st2 ∧ CapOK st2 := by
  unfold Delete at h
  cases hl : lookupA st.items k with
  | none =>
      rw [hl] at h
      cases h
      exact ⟨hw, hc⟩
  | some eid =>
      rw [hl] at h
      simp only [Option.bind_eq_bind, Option.bind_eq_some, Option.some.injEq,
        Prod.mk.injEq] at h
      obtain ⟨it, hg, hst, hevs⟩ := h
      subst hst
      have hkey : it.key = k := wf_key_of_binding hw hl hg
      set st1 := (match it.timer with
        | some t => stopTimer st t
        | none => st) with hst1
      have hw1 : WF st1 := by
        rw [hst1]
        split <;> exact hw
      have h1heap : st1.heap = st.heap := by
        rw [hst1]
        split <;> rfl
      have h1lst : st1.lst = st.lst := by
        rw [hst1]
        split <;> rfl
      have h1cap : st1.capacity = st.capacity := by
        rw [hst1]
        split <;> rfl
      have hb1 : lookupA st1.heap eid = some (some it) := by
        rw [h1heap]
        exact getItem_some hg
      constructor
      · have hkill := wf_kill st1 eid it hb1 hw1
        rw [hkey] at hkill
        exact hkill
      · refine ⟨?_, ?_⟩
        · show ((st1.lst.erase eid).length : Int) ≤ st1.capacity
          rw [h1lst, h1cap]
          have hle := List.length_erase_le eid st.lst
          have := hc.1
          omega
        · show (1 : Int) ≤ st1.capacity
          rw [h1cap]
          exact hc.2

theorem inv_get [Inhabited V] (st : Cache K V) (k : K) {v : V} {bl : Bool}
    {st2 : Cache K V} (h : Get k st = some (v, bl, st2))
    (hw : WF st) (hc : CapOK st) : WF st2 ∧ CapOK st2 := by
  unfold Get at h
  cases hl : lookupA st.items k with
  | none =>
      rw [hl] at h
      cases h
      exact ⟨hw, hc⟩
  | some eid =>
      rw [hl] at h
      simp only [Option.bind_eq_bind, Option.bind_eq_some, Option.some.injEq,
        Prod.mk.injEq] at h
      obtain ⟨it, hg, r, hr, it2, hg2, hv, hbl, hst⟩ := h
      subst hst
      obtain ⟨hwr, hcr⟩ := inv_refresh st k it.ttl hr hw hc
      refine ⟨wf_moveToFront _ _ hwr, ?_, ?_⟩
      · show (((moveToFront r.1 eid).lst.length : Int)) ≤ (moveToFront r.1 eid).capacity
        rw [moveToFront_length, moveToFront_capacity]
        exact hcr.1
      · show (1 : Int) ≤ (moveToFront r.1 eid).capacity
        rw [moveToFront_capacity]
        exact hcr.2

theorem inv_evictLoop (fuel : Nat) (st : Cache K V) {st2 : Cache K V}
    {evs : List (Ev K V)} (h : evictLoop fuel st = some (st2, evs)) (hw : WF st) :
    WF st2 ∧ (st2.lst.length : Int) ≤ st2.capacity ∧ st2.capacity = st.capacity := by
  induction fuel generalizing st evs with
  | zero => cases h
  | succ fuel ih =>
      unfold evictLoop at h
      by_cases hcond : (st.lst.length : Int) > st.capacity
      · rw [if_pos hcond] at h
        cases hb : st.lst.getLast? with
        | none => rw [hb] at h; cases h
        | some bid =>
            rw [hb] at h
            simp only [Option.bind_eq_bind, Option.bind_eq_some, Option.some.injEq,
              Prod.mk.injEq] at h
            obtain ⟨bit, hbit, r, hr, hst, hevs⟩ := h
            subst hst
            have hwk := wf_kill st bid bit (getItem_some hbit) hw
            obtain ⟨hw2, hlen2, hcap2⟩ := ih _ hr hwk
            exact ⟨hw2, hlen2, hcap2⟩
      · rw [if_neg hcond] at h
        cases h
        exact ⟨hw, by omega, rfl⟩

theorem inv_set (st : Cache K V) (k : K) (v : V) {st2 : Cache K V}
    {evs : List (Ev K V)} (h : Set k v st = some (st2, evs))
    (hw : WF st) (hc : CapOK st) : WF st2 ∧ CapOK st2 := by
  have h0 := h
  unfold Set at h
  cases hl : lookupA st.items k with
  | none =>
      rw [hl] at h
      simp only [Option.pure_def, Option.bind_eq_bind, Option.some_bind] at h
      by_cases hcap2 : (st.lst.length : Int) ≥ st.capacity
      · rw [if_pos hcap2] at h
        cases hb : st.lst.getLast? with
        | none =>
            exfalso
            rw [List.getLast?_eq_none_iff] at hb
            rw [hb] at hcap2
            have h2 := hc.2
            simp only [List.length_nil, Nat.cast_zero] at hcap2
            omega
        | some bid =>
            rw [hb] at h
            simp only [Option.bind_eq_some] at h
            obtain ⟨bit, hbit, -⟩ := h
            rw [set_full_fresh st k v bid bit hl hcap2 hb hbit] at h0
            cases h0
            have hwk := wf_kill st bid bit (getItem_some hbit) hw
            constructor
            · exact wf_pushInsert _ k { key := k, value := v } rfl hwk
            · have hbm : bid ∈ st.lst := List.mem_of_getLast?_eq_some hb
              have hlen := List.length_erase_of_mem hbm
              have hpos := List.length_pos.mpr (List.ne_nil_of_mem hbm)
              refine ⟨?_, hc.2⟩
              show (((st.nextId :: st.lst.erase bid).length : Int)) ≤ st.capacity
              rw [List.length_cons, hlen]
              have := hc.1
              push_cast
              omega
      · rw [if_neg hcap2] at h
        rw [set_fresh st k v hl (by omega)] at h0
        cases h0
        constructor
        · have hx := wf_pushInsert st k { key := k, value := v } rfl hw
          rw [show insertA st.items k st.nextId = (k, st.nextId) :: st.items from by
            rw [insertA, eraseA_eq_of_lookup_none hl]] at hx
          exact hx
        · refine ⟨?_, hc.2⟩
          show (((st.nextId :: st.lst).length : Int)) ≤ st.capacity
          rw [List.length_cons]
          push_cast
          omega
  | some eid =>
      rw [hl] at h
      simp only [Option.pure_def, Option.bind_eq_bind, Option.bind_eq_some,
        Option.some.injEq, Prod.mk.injEq] at h
      obtain ⟨it, hg, Y, hY, h⟩ := h
      have hmemSt : eid ∈ st.lst := by
        obtain ⟨it2, _, _, hmem⟩ := hw.2.1 (k, eid) (lookupA_some_mem hl)
        exact hmem
      have hwY : WF Y := by
        rw [← hY]
        apply wf_moveToFront
        split <;> exact hw
      have hYlen : Y.lst.length = st.lst.length := by
        rw [← hY, moveToFront_length]
        split <;> rfl
      have hYcap : Y.capacity = st.capacity := by
        rw [← hY, moveToFront_capacity]
        split <;> rfl
      have hYheap : Y.heap = st.heap := by
        rw [← hY, moveToFront_heap]
        split <;> rfl
      have hgY : getItem Y eid = some it := by
        unfold getItem
        rw [hYheap]
        exact hg
      by_cases hcap2 : (Y.lst.length : Int) ≥ Y.capacity
      · rw [if_pos hcap2] at h
        cases hb : Y.lst.getLast? with
        | none =>
            exfalso
            rw [List.getLast?_eq_none_iff] at hb
            have hz : st.lst.length = 0 := by rw [← hYlen, hb]; rfl
            have := List.length_pos.mpr (List.ne_nil_of_mem hmemSt)
            omega
        | some bid =>
            rw [hb] at h
            simp only [Option.bind_eq_some, Option.some_bind, Option.some.injEq,
              Prod.mk.injEq] at h
            obtain ⟨bit, hbit, it2, hit2, it3, hit3, pay, hpay, h⟩ := h
            cases how : it3.onWatch with
            | false =>
                rw [how] at hpay
                simp [getItem, pushFront, lookupA_cons] at hpay
            | true =>
                rw [how] at hpay h
                simp only [if_true] at hpay h
                simp only [getItem, pushFront, lookupA_cons, if_pos rfl] at hpay
                have hpayv : pay = { key := k, value := v, onWatch := true } := by
                  simp at hpay
                  exact hpay.symm
                subst hpayv
                simp only [if_true] at h
                simp only [Option.bind_eq_some, Option.some_bind, Option.some.injEq,
                  Prod.mk.injEq] at h
                obtain ⟨oldIt, hold, hst, hevs⟩ := h
                subst hst
                have hwk := wf_kill Y bid bit (getItem_some hbit) hwY
                constructor
                · exact wf_pushInsert _ k { key := k, value := v, onWatch := true } rfl hwk
                · have hbm : bid ∈ Y.lst := List.mem_of_getLast?_eq_some hb
                  have hlen := List.length_erase_of_mem hbm
                  have hpos := List.length_pos.mpr (List.ne_nil_of_mem hbm)
                  refine ⟨?_, ?_⟩
                  · show (((Y.nextId :: Y.lst.erase bid).length : Int)) ≤ Y.capacity
                    rw [List.length_cons, hlen]
                    have := hc.1
                    rw [hYcap]
                    rw [← hYlen] at this
                    push_cast
                    omega
                  · show (1 : Int) ≤ Y.capacity
                    rw [hYcap]
                    exact hc.2
      · rw [if_neg hcap2] at h
        simp only [Option.bind_eq_some, Option.some_bind, Option.some.injEq,
          Prod.mk.injEq] at h
        obtain ⟨it3, hit3, pay, hpay, h⟩ := h
        cases how : it3.onWatch with
        | false =>
            rw [how] at hpay
            simp [getItem, pushFront, lookupA_cons] at hpay
        | true =>
            rw [how] at hpay h
            simp only [if_true] at hpay h
            have hpayv : pay = { key := k, value := v, onWatch := true } := by
              simp only [getItem, pushFront, lookupA_cons, if_pos rfl] at hpay
              simp at hpay
              exact hpay.symm
            subst hpayv
            simp only [if_true] at h
            simp only [Option.bind_eq_some, Option.some_bind, Option.some.injEq,
              Prod.mk.injEq] at h
            obtain ⟨oldIt, hold, hst, hevs⟩ := h
            subst hst
            constructor
            · exact wf_pushInsert _ k { key := k, value := v, onWatch := true } rfl hwY
            · refine ⟨?_, ?_⟩
              · show (((Y.nextId :: Y.lst).length : Int)) ≤ Y.capacity
                rw [List.length_cons]
                push_cast
                push_cast at hcap2
                omega
              · show (1 : Int) ≤ Y.capacity
                rw [hYcap]
                exact hc.2

theorem wf_stopMatch (X : Cache K V) (o : Option Nat) (h : WF X) :
    WF (match o with
      | some t => stopTimer X t
      | none => X) := by
  cases o <;> exact h

theorem stopMatch_heap (X : Cache K V) (o : Option Nat) :
    (match o with
      | some t => stopTimer X t
      | none => X).heap = X.heap := by
  cases o <;> rfl

theorem stopMatch_lst (X : Cache K V) (o : Option Nat) :
    (match o with
      | some t => stopTimer X t
      | none => X).lst = X.lst := by
  cases o <;> rfl

theorem stopMatch_items (X : Cache K V) (o : Option Nat) :
    (match o with
      | some t => stopTimer X t
      | none => X).items = X.items := by
  cases o <;> rfl

theorem stopMatch_capacity (X : Cache K V) (o : Option Nat) :
    (match o with
      | some t => stopTimer X t
      | none => X).capacity = X.capacity := by
  cases o <;> rfl

theorem stopMatch_nextId (X : Cache K V) (o : Option Nat) :
    (match o with
      | some t => stopTimer X t
      | none => X).nextId = X.nextId := by
  cases o <;> rfl

theorem capok_push_evict (X : Cache K V) (bid : Nat) (C : Int) (hbm : bid ∈ X.lst)
    (hlen : (X.lst.length : Int) ≤ C) :
    (((X.nextId :: X.lst.erase bid).length : Int)) ≤ C := by
  rw [List.length_cons, List.length_erase_of_mem hbm]
  have := List.length_pos.mpr (List.ne_nil_of_mem hbm)
  push_cast
  push_cast at hlen
  omega

theorem capok_push (X : Cache K V) (C : Int) (hlt : (X.lst.length : Int) < C) :
    (((X.nextId :: X.lst).length : Int)) ≤ C := by
  rw [List.length_cons]
  push_cast
  push_cast at hlt
  omega

theorem inv_setWithTTL (st : Cache K V) (k : K) (v : V) (ttl : Int) {st2 : Cache K V}
    {evs : List (Ev K V)} (h : SetWithTTL k v ttl st = some (st2, evs))
    (hw : WF st) (hc : CapOK st) : WF st2 ∧ CapOK st2 := by
  unfold SetWithTTL at h
  cases hl : lookupA st.items k with
  | none =>
      rw [hl] at h
      simp only [Option.pure_def, Option.bind_eq_bind, Option.some_bind] at h
      by_cases ht : ttl > 0
      · rw [if_pos ht] at h
        simp only [armTimer_lst, armTimer_capacity] at h
        by_cases hcap2 : (st.lst.length : Int) ≥ st.capacity
        · rw [if_pos hcap2] at h
          cases hb : st.lst.getLast? with
          | none =>
              exfalso
              rw [List.getLast?_eq_none_iff] at hb
              rw [hb] at hcap2
              have h2 := hc.2
              simp only [List.length_nil, Nat.cast_zero] at hcap2
              omega
          | some bid =>
              rw [hb] at h
              simp only [Option.bind_eq_some, Option.some_bind, Option.some.injEq,
                Prod.mk.injEq] at h
              obtain ⟨bit, hbit, pay, hpay, h⟩ := h
              have hpayv : pay =
                  { key := k, value := v,
                    timer := some (armTimer st (TimerCb.expire k v)).2, ttl := ttl } := by
                simp only [getItem, pushFront, lookupA_cons, if_pos rfl] at hpay
                simp at hpay
                exact hpay.symm
              subst hpayv
              rw [if_neg (by simp)] at h
              simp only [Option.some_bind, Option.some.injEq, Prod.mk.injEq] at h
              obtain ⟨hst, hevs⟩ := h
              subst hst
              have hbm : bid ∈ st.lst := List.mem_of_getLast?_eq_some hb
              constructor
              · split
                · exact wf_pushInsert _ k
                    { key := k, value := v,
                      timer := some (armTimer st (TimerCb.expire k v)).2, ttl := ttl } rfl
                    (wf_kill _ bid bit (getItem_some hbit) hw)
                · exact wf_pushInsert _ k
                    { key := k, value := v,
                      timer := some (armTimer st (TimerCb.expire k v)).2, ttl := ttl } rfl
                    (wf_kill _ bid bit (getItem_some hbit) hw)
              · constructor
                · split
                  · exact capok_push_evict st bid st.capacity hbm hc.1
                  · exact capok_push_evict st bid st.capacity hbm hc.1
                · split
                  · exact hc.2
                  · exact hc.2
        · rw [if_neg hcap2] at h
          simp only [Option.bind_eq_some, Option.some_bind, Option.some.injEq,
            Prod.mk.injEq] at h
          obtain ⟨pay, hpay, h⟩ := h
          have hpayv : pay =
              { key := k, value := v,
                timer := some (armTimer st (TimerCb.expire k v)).2, ttl := ttl } := by
            simp only [getItem, pushFront, lookupA_cons, if_pos rfl] at hpay
            simp at hpay
            exact hpay.symm
          subst hpayv
          rw [if_neg (by simp)] at h
          simp only [Option.some_bind, Option.some.injEq, Prod.mk.injEq] at h
          obtain ⟨hst, hevs⟩ := h
          subst hst
          constructor
          · exact wf_pushInsert _ k
              { key := k, value := v,
                timer := some (armTimer st (TimerCb.expire k v)).2, ttl := ttl } rfl hw
          · exact ⟨capok_push st st.capacity (by omega), hc.2⟩
      · rw [if_neg ht] at h
        by_cases hcap2 : (st.lst.length : Int) ≥ st.capacity
        · rw [if_pos hcap2] at h
          cases hb : st.lst.getLast? with
          | none =>
              exfalso
              rw [List.getLast?_eq_none_iff] at hb
              rw [hb] at hcap2
              have h2 := hc.2
              simp only [List.length_nil, Nat.cast_zero] at hcap2
              omega
          | some bid =>
              rw [hb] at h
              simp only [Option.bind_eq_some, Option.some_bind, Option.some.injEq,
                Prod.mk.injEq] at h
              obtain ⟨bit, hbit, pay, hpay, h⟩ := h
              have hpayv : pay = { key := k, value := v, timer := none, ttl := ttl } := by
                simp only [getItem, pushFront, lookupA_cons, if_pos rfl] at hpay
                simp at hpay
                exact hpay.symm
              subst hpayv
              rw [if_neg (by simp)] at h
              simp only [Option.some_bind, Option.some.injEq, Prod.mk.injEq] at h
              obtain ⟨hst, hevs⟩ := h
              subst hst
              have hbm : bid ∈ st.lst := List.mem_of_getLast?_eq_some hb
              constructor
              · split
                · exact wf_pushInsert _ k
                    { key := k, value := v, timer := none, ttl := ttl } rfl
                    (wf_kill _ bid bit (getItem_some hbit) hw)
                · exact wf_pushInsert _ k
                    { key := k, value := v, timer := none, ttl := ttl } rfl
                    (wf_kill _ bid bit (getItem_some hbit) hw)
              · constructor
                · split
                  · exact capok_push_evict st bid st.capacity hbm hc.1
                  · exact capok_push_evict st bid st.capacity hbm hc.1
                · split
                  · exact hc.2
                  · exact hc.2
        · rw [if_neg hcap2] at h
          simp only [Option.bind_eq_some, Option.some_bind, Option.some.injEq,
            Prod.mk.injEq] at h
          obtain ⟨pay, hpay, h⟩ := h
          have hpayv : pay = { key := k, value := v, timer := none, ttl := ttl } := by
            simp only [getItem, pushFront, lookupA_cons, if_pos rfl] at hpay
            simp at hpay
            exact hpay.symm
          subst hpayv
          rw [if_neg (by simp)] at h
          simp only [Option.some_bind, Option.some.injEq, Prod.mk.injEq] at h
          obtain ⟨hst, hevs⟩ := h
          subst hst
          constructor
          · exact wf_pushInsert _ k
              { key := k, value := v, timer := none, ttl := ttl } rfl hw
          · exact ⟨capok_push st st.capacity (by omega), hc.2⟩
  | some eid =>
      rw [hl] at h
      simp only [Option.pure_def, Option.bind_eq_bind, Option.bind_eq_some,
        Option.some.injEq, Prod.mk.injEq] at h
      obtain ⟨it, hg, h⟩ := h
      cases htm : it.timer with
      | none =>
          rw [htm] at h
          simp at h
      | some t =>
          rw [htm] at h
          simp only [Option.pure_def, Option.bind_eq_bind, Option.some_bind] at h
          set Z := moveToFront (stopTimer st t) eid with hZdef
          have hmemSt : eid ∈ st.lst := by
            obtain ⟨it2, _, _, hmem⟩ := hw.2.1 (k, eid) (lookupA_some_mem hl)
            exact hmem
          have hwZ : WF Z := by
            rw [hZdef]
            exact wf_moveToFront _ _ hw
          have hZlen : Z.lst.length = st.lst.length := by
            rw [hZdef]
            exact moveToFront_length _ _
          have hZcap : Z.capacity = st.capacity := by
            rw [hZdef]
            exact moveToFront_capacity _ _
          have hZheap : Z.heap = st.heap := by
            rw [hZdef]
            exact moveToFront_heap _ _
          have hlcZ : (Z.lst.length : Int) ≤ Z.capacity := by
            rw [hZlen, hZcap]
            exact hc.1
          have h1Z : (1 : Int) ≤ Z.capacity := by
            rw [hZcap]
            exact hc.2
          by_cases ht : ttl > 0
          · rw [if_pos ht] at h
            simp only [armTimer_lst, armTimer_capacity] at h
            by_cases hcap2 : (Z.lst.length : Int) ≥ Z.capacity
            · rw [if_pos hcap2] at h
              cases hb : Z.lst.getLast? with
              | none =>
                  exfalso
                  rw [List.getLast?_eq_none_iff] at hb
                  have hz : st.lst.length = 0 := by rw [← hZlen, hb]; rfl
                  have := List.length_pos.mpr (List.ne_nil_of_mem hmemSt)
                  omega
              | some bid =>
                  rw [hb] at h
                  simp only [Option.bind_eq_some, Option.some_bind, Option.some.injEq,
                    Prod.mk.injEq] at h
                  obtain ⟨bit, hbit, it2w, hit2w, it3, hit3, pay, hpay, h⟩ := h
                  cases how : it3.onWatch with
                  | false =>
                      rw [how] at hpay
                      simp [getItem, pushFront, lookupA_cons] at hpay
                  | true =>
                      rw [how] at hpay h
                      simp only [if_true] at hpay h
                      have hpayv : pay =
                          { key := k, value := v,
                            timer := some (armTimer Z (TimerCb.expire k v)).2,
                            onWatch := true } := by
                        simp only [getItem, pushFront, lookupA_cons, if_pos rfl] at hpay
                        simp at hpay
                        exact hpay.symm
                      subst hpayv
                      simp only [if_true] at h
                      simp only [Option.bind_eq_some, Option.some_bind, Option.some.injEq,
                        Prod.mk.injEq] at h
                      obtain ⟨oldIt, hold, hst, hevs⟩ := h
                      subst hst
                      have hbm : bid ∈ Z.lst := List.mem_of_getLast?_eq_some hb
                      constructor
                      · split
                        · exact wf_pushInsert _ k
                            { key := k, value := v,
                              timer := some (armTimer Z (TimerCb.expire k v)).2,
                              onWatch := true } rfl
                            (wf_kill _ bid bit (getItem_some hbit) hwZ)
                        · exact wf_pushInsert _ k
                            { key := k, value := v,
                              timer := some (armTimer Z (TimerCb.expire k v)).2,
                              onWatch := true } rfl
                            (wf_kill _ bid bit (getItem_some hbit) hwZ)
                      · constructor
                        · split
                          · exact capok_push_evict Z bid Z.capacity hbm hlcZ
                          · exact capok_push_evict Z bid Z.capacity hbm hlcZ
                        · split
                          · exact h1Z
                          · exact h1Z
            · rw [if_neg hcap2] at h
              simp only [Option.bind_eq_some, Option.some_bind, Option.some.injEq,
                Prod.mk.injEq] at h
              obtain ⟨it3, hit3, pay, hpay, h⟩ := h
              cases how : it3.onWatch with
              | false =>
                  rw [how] at hpay
                  simp [getItem, pushFront, lookupA_cons] at hpay
              | true =>
                  rw [how] at hpay h
                  simp only [if_true] at hpay h
                  have hpayv : pay =
                      { key := k, value := v,
                        timer := some (armTimer Z (TimerCb.expire k v)).2,
                        onWatch := true } := by
                    simp only [getItem, pushFront, lookupA_cons, if_pos rfl] at hpay
                    simp at hpay
                    exact hpay.symm
                  subst hpayv
                  simp only [if_true] at h
                  simp only [Option.bind_eq_some, Option.some_bind, Option.some.injEq,
                    Prod.mk.injEq] at h
                  obtain ⟨oldIt, hold, hst, hevs⟩ := h
                  subst hst
                  constructor
                  · exact wf_pushInsert _ k
                      { key := k, value := v,
                        timer := some (armTimer Z (TimerCb.expire k v)).2,
                        onWatch := true } rfl hwZ
                  · exact ⟨capok_push Z Z.capacity (by omega), h1Z⟩
          · rw [if_neg ht] at h
            by_cases hcap2 : (Z.lst.length : Int) ≥ Z.capacity
            · rw [if_pos hcap2] at h
              cases hb : Z.lst.getLast? with
              | none =>
                  exfalso
                  rw [List.getLast?_eq_none_iff] at hb
                  have hz : st.lst.length = 0 := by rw [← hZlen, hb]; rfl
                  have := List.length_pos.mpr (List.ne_nil_of_mem hmemSt)
                  omega
              | some bid =>
                  rw [hb] at h
                  simp only [Option.bind_eq_some, Option.some_bind, Option.some.injEq,
                    Prod.mk.injEq] at h
                  obtain ⟨bit, hbit, it2w, hit2w, it3, hit3, pay, hpay, h⟩ := h
                  cases how : it3.onWatch with
                  | false =>
                      rw [how] at hpay
                      simp [getItem, pushFront, lookupA_cons] at hpay
                  | true =>
                      rw [how] at hpay h
                      simp only [if_true] at hpay h
                      have hpayv : pay =
                          { key := k, value := v, timer := none, onWatch := true } := by
                        simp only [getItem, pushFront, lookupA_cons, if_pos rfl] at hpay
                        simp at hpay
                        exact hpay.symm
                      subst hpayv
                      simp only [if_true] at h
                      simp only [Option.bind_eq_some, Option.some_bind, Option.some.injEq,
                        Prod.mk.injEq] at h
                      obtain ⟨oldIt, hold, hst, hevs⟩ := h
                      subst hst
                      have hbm : bid ∈ Z.lst := List.mem_of_getLast?_eq_some hb
                      constructor
                      · split
                        · exact wf_pushInsert _ k
                            { key := k, value := v, timer := none, onWatch := true } rfl
                            (wf_kill _ bid bit (getItem_some hbit) hwZ)
                        · exact wf_pushInsert _ k
                            { key := k, value := v, timer := none, onWatch := true } rfl
                            (wf_kill _ bid bit (getItem_some hbit) hwZ)
                      · constructor
                        · split
                          · exact capok_push_evict Z bid Z.capacity hbm hlcZ
                          · exact capok_push_evict Z bid Z.capacity hbm hlcZ
                        · split
                          · exact h1Z
                          · exact h1Z
            · rw [if_neg hcap2] at h
              simp only [Option.bind_eq_some, Option.some_bind, Option.some.injEq,
                Prod.mk.injEq] at h
              obtain ⟨it3, hit3, pay, hpay, h⟩ := h
              cases how : it3.onWatch with
              | false =>
                  rw [how] at hpay
                  simp [getItem, pushFront, lookupA_cons] at hpay
              | true =>
                  rw [how] at hpay h
                  simp only [if_true] at hpay h
                  have hpayv : pay =
                      { key := k, value := v, timer := none, onWatch := true } := by
                    simp only [getItem, pushFront, lookupA_cons, if_pos rfl] at hpay
                    simp at hpay
                    exact hpay.symm
                  subst hpayv
                  simp only [if_true] at h
                  simp only [Option.bind_eq_some, Option.some_bind, Option.some.injEq,
                    Prod.mk.injEq] at h
                  obtain ⟨oldIt, hold, hst, hevs⟩ := h
                  subst hst
                  constructor
                  · exact wf_pushInsert _ k
                      { key := k, value := v, timer := none, onWatch := true } rfl hwZ
                  · exact ⟨capok_push Z Z.capacity (by omega), h1Z⟩

theorem inv_deleteAllStep (st : Cache K V) (p : K × Nat) {st2 : Cache K V}
    {evs : List (Ev K V)} (h : deleteAllStep st p = some (st2, evs)) (hw : WF st)
    (hkeyp : ∀ it, getItem st p.2 = some it → it.key = p.1) :
    WF st2 ∧ st2.lst.length ≤ st.lst.length ∧ st2.capacity = st.capacity ∧
      st2.heap = st.heap := by
  unfold deleteAllStep at h
  simp only [Option.bind_eq_bind, Option.bind_eq_some] at h
  obtain ⟨it, hg, h⟩ := h
  cases htm : it.timer with
  | none =>
      rw [htm] at h
      cases h
      exact ⟨hw, le_refl _, rfl, rfl⟩
  | some t =>
      rw [htm] at h
      cases h
      refine ⟨?_, ?_, rfl, rfl⟩
      · have hkill := wf_kill (stopTimer st t) p.2 it (getItem_some hg) hw
        rw [hkeyp it hg] at hkill
        exact hkill
      · show ((stopTimer st t).lst.erase p.2).length ≤ st.lst.length
        exact List.length_erase_le _ _

theorem inv_runDeleteAll (l : List (K × Nat)) (st : Cache K V) {st2 : Cache K V}
    {evs : List (Ev K V)} (h : runDeleteAll l st = some (st2, evs)) (hw : WF st)
    (hkeys : ∀ p ∈ l, ∀ it, getItem st p.2 = some it → it.key = p.1) :
    WF st2 ∧ st2.lst.length ≤ st.lst.length ∧ st2.capacity = st.capacity := by
  induction l generalizing st evs with
  | nil =>
      cases h
      exact ⟨hw, le_refl _, rfl⟩
  | cons p rest ih =>
      unfold runDeleteAll at h
      simp only [Option.bind_eq_bind, Option.bind_eq_some, Option.some.injEq,
        Prod.mk.injEq] at h
      obtain ⟨⟨stm, e1⟩, h1, ⟨stn, e2⟩, h2, hst, hevs⟩ := h
      subst hst
      obtain ⟨hw1, hlen1, hcap1, hheap1⟩ := inv_deleteAllStep st p h1 hw
        (hkeys p (List.mem_cons_self _ _))
      have hkeys1 : ∀ q ∈ rest, ∀ it, getItem stm q.2 = some it → it.key = q.1 := by
        intro q hq it hg
        refine hkeys q (List.mem_cons_of_mem _ hq) it ?_
        unfold getItem at hg ⊢
        rw [← hheap1]
        exact hg
      obtain ⟨hw2, hlen2, hcap2⟩ := ih stm h2 hw1 hkeys1
      exact ⟨hw2, le_trans hlen2 hlen1, hcap2.trans hcap1⟩

theorem inv_deleteAll (st : Cache K V) {st2 : Cache K V} {evs : List (Ev K V)}
    (h : DeleteAll st = some (st2, evs)) (hw : WF st) (hc : CapOK st) :
    WF st2 ∧ CapOK st2 := by
  unfold DeleteAll at h
  have hkeys : ∀ p ∈ st.items, ∀ it, getItem st p.2 = some it → it.key = p.1 := by
    intro p hp it hg
    obtain ⟨it2, hlook, hkey, _⟩ := hw.2.1 p hp
    rw [getItem_some hg] at hlook
    cases hlook
    exact hkey
  obtain ⟨hw2, hlen, hcap⟩ := inv_runDeleteAll _ _ h hw hkeys
  refine ⟨hw2, ?_, by rw [hcap]; exact hc.2⟩
  rw [hcap]
  have := hc.1
  omega

theorem inv_setCapacity (st : Cache K V) (n : Int) {st2 : Cache K V}
    {evs : List (Ev K V)} (h : SetCapacity n st = some (st2, evs))
    (hw : WF st) (hn : 1 ≤ n) : WF st2 ∧ CapOK st2 := by
  unfold SetCapacity at h
  obtain ⟨hw2, hlen2, hcap2⟩ := inv_evictLoop _ _ h hw
  exact ⟨hw2, hlen2, by rw [hcap2]; exact hn⟩

theorem inv_runOp [Inhabited V] (op : Op K V) (st : Cache K V) {st2 : Cache K V}
    {evs : List (Ev K V)} (hgood : GoodOp op) (h : runOp op st = some (st2, evs))
    (hw : WF st) (hc : CapOK st) : WF st2 ∧ CapOK st2 := by
  cases op with
  | set k v => exact inv_set st k v h hw hc
  | setWithTTL k v t => exact inv_setWithTTL st k v t h hw hc
  | get k =>
      simp only [runOp, Option.map_eq_some'] at h
      obtain ⟨r, hr, hst⟩ := h
      rw [Prod.mk.injEq] at hst
      obtain ⟨h1, -⟩ := hst
      subst h1
      exact inv_get st k hr hw hc
  | update k v => exact inv_update st k v h hw hc
  | updateWithTTL k v t => exact inv_updateWithTTL st k v t h hw hc
  | refresh k t => exact inv_refresh st k t h hw hc
  | delete k => exact inv_delete st k h hw hc
  | deleteAll => exact inv_deleteAll st h hw hc
  | setCapacity n => exact inv_setCapacity st n h hw hgood
  | onWatch k => exact hgood.elim
  | fire t => exact hgood.elim
  | regInsert => cases h; exact ⟨hw, hc⟩
  | regUpdate => cases h; exact ⟨hw, hc⟩
  | regDelete => cases h; exact ⟨hw, hc⟩
  | regExpire => cases h; exact ⟨hw, hc⟩
  | regEvict => cases h; exact ⟨hw, hc⟩

theorem nodup_snd_of_keys (l : List (K × Nat)) (heap : List (Nat × Option (Item K V)))
    (hnd : (l.map Prod.fst).Nodup)
    (hpt : ∀ p ∈ l, ∃ it, lookupA heap p.2 = some (some it) ∧ it.key = p.1) :
    (l.map Prod.snd).Nodup := by
  induction l with
  | nil => simp
  | cons p rest ih =>
      simp only [List.map_cons, List.nodup_cons] at hnd ⊢
      refine ⟨?_, ih hnd.2 (fun q hq => hpt q (List.mem_cons_of_mem _ hq))⟩
      intro hmem
      obtain ⟨q, hq, hq2⟩ := List.mem_map.mp hmem
      obtain ⟨it, hl1, hk1⟩ := hpt p (List.mem_cons_self _ _)
      obtain ⟨it2, hl2, hk2⟩ := hpt q (List.mem_cons_of_mem _ hq)
      rw [hq2, hl1] at hl2
      cases hl2
      have hpq : p.1 = q.1 := by rw [← hk1]; exact hk2
      have hqm : q.1 ∈ rest.map Prod.fst := List.mem_map_of_mem Prod.fst hq
      rw [← hpq] at hqm
      exact hnd.1 hqm

theorem wf_items_length_le (st : Cache K V) (h : WF st) :
    st.items.length ≤ st.lst.length := by
  have hnd : (st.items.map Prod.snd).Nodup := by
    refine nodup_snd_of_keys st.items st.heap h.1 ?_
    intro p hp
    obtain ⟨it, h1, h2, -⟩ := h.2.1 p hp
    exact ⟨it, h1, h2⟩
  have hsub : st.items.map Prod.snd ⊆ st.lst := by
    intro i hi
    obtain ⟨p, hp, hpi⟩ := List.mem_map.mp hi
    obtain ⟨it, -, -, hm⟩ := h.2.1 p hp
    rw [← hpi]
    exact hm
  have hle := (List.subperm_of_subset hnd hsub).length_le
  rw [List.length_map] at hle
  exact hle

theorem inv_runOps [Inhabited V] (ops : List (Op K V)) (st : Cache K V) {st2 : Cache K V}
    {evs : List (Ev K V)} (hgood : ∀ op ∈ ops, GoodOp op)
    (h : runOps ops st = some (st2, evs)) (hw : WF st) (hc : CapOK st) :
    WF st2 ∧ CapOK st2 := by
  induction ops generalizing st evs with
  | nil =>
      simp only [runOps, Option.some.injEq, Prod.mk.injEq] at h
      rw [← h.1]
      exact ⟨hw, hc⟩
  | cons op rest ih =>
      simp only [runOps, Option.pure_def, Option.bind_eq_bind] at h
      cases hop : runOp op st with
      | none => rw [hop] at h; simp at h
      | some r =>
          obtain ⟨st1, e1⟩ := r
          rw [hop] at h
          simp only [Option.some_bind] at h
          cases hrest : runOps rest st1 with
          | none => rw [hrest] at h; simp at h
          | some r2 =>
              obtain ⟨st3, e3⟩ := r2
              rw [hrest] at h
              simp only [Option.some_bind, Option.some.injEq, Prod.mk.injEq] at h
              obtain ⟨h4, -⟩ := h
              subst h4
              obtain ⟨hw1, hc1⟩ :=
                inv_runOp op st (hgood op (List.mem_cons_self _ _)) hop hw hc
              exact ih st1 (fun o ho => hgood o (List.mem_cons_of_mem _ ho)) hrest hw1 hc1

theorem wf_New (cap : Int) : WF (New cap : Cache K V) :=
  ⟨List.nodup_nil, fun p hp => absurd hp (List.not_mem_nil p),
    fun q hq => absurd hq (List.not_mem_nil q)⟩

theorem capok_New (cap : Int) (h : 1 ≤ cap) : CapOK (New cap : Cache K V) :=
  ⟨by show ((([] : List Nat).length : Int)) ≤ cap; simp; omega, h⟩

/-- Claim C4 (amended): the capacity invariant holds across every sequence of
public mutating operations other than `OnWatch` — starting from `New cap` with
`cap ≥ 1` and running any sequence of `Set`, `SetWithTTL`, `Get`, `Update`,
`UpdateWithTTL`, `Refresh`, `Delete`, `DeleteAll`, hook registrations and
`SetCapacity` with positive argument, every completed run ends with the number
of map entries at most the capacity.  (`OnWatch` on an absent key is the
exception recorded in the counterexample: its placeholder insertion has no
capacity check.) -/
theorem c4_capacity_invariant_for_public_ops [Inhabited V] (ops : List (Op K V))
    (cap : Int) (hops : ∀ op ∈ ops, GoodOp op) (hcap : 1 ≤ cap) {st2 : Cache K V}
    {evs : List (Ev K V)} (h : runOps ops (New cap) = some (st2, evs)) :
    (Len st2 : Int) ≤ st2.capacity := by
  obtain ⟨hw2, hc2⟩ := inv_runOps ops (New cap) hops h (wf_New cap) (capok_New cap hcap)
  have hle := wf_items_length_le st2 hw2
  have hlc := hc2.1
  show ((st2.items.length : Int)) ≤ st2.capacity
  omega

/-- Witness for C4: three inserts into a capacity-2 cache form a sequence of
good public operations, the run completes, and the final entry count is within
the capacity. -/
theorem c4_capacity_invariant_for_public_ops_witness :
    ∃ r : Cache String Int × List (Ev String Int),
      runOps [Op.set "a" 1, Op.set "b" 2, Op.set "c" 3] (New 2) = some r ∧
        (Len r.1 : Int) ≤ r.1.capacity := by
  obtain ⟨r, hr⟩ : ∃ r, runOps [Op.set "a" (1 : Int), Op.set "b" 2, Op.set "c" 3]
      (New 2 : Cache String Int) = some r := ⟨_, rfl⟩
  obtain ⟨stf, evf⟩ := r
  refine ⟨(stf, evf), hr, ?_⟩
  refine c4_capacity_invariant_for_public_ops _ 2 ?_ (by decide) hr
  intro op hop
  simp only [List.mem_cons, List.not_mem_nil, or_false] at hop
  rcases hop with rfl | rfl | rfl <;> exact trivial

end Tcache
